import Mathlib

/-!
Verification development for the `conststr` crate: a fixed-capacity,
allocation-free UTF-8 string buffer `String<N>` (file `src/string/mod.rs`),
its manual UTF-8 decoder (`src/utf8/mod.rs`) and its error types
(`src/error/`).

Modelling conventions:
* bytes and Unicode scalar values are `Nat` (byte values are kept below
  `0x100` by the operations themselves);
* the backing array `buf : [u8; N]` is a `List Nat` of length `N`;
* a Rust `&str` argument is modelled by its sequence of Unicode scalar
  values (a `List Nat` whose members satisfy `IsScalar`); its byte form is
  recovered with `utf8Encode`;
* methods that can panic return `Option _`, with `none` marking the panic;
* fallible methods additionally return the post state, so that atomicity
  ("no mutation on failure") is an actual statement about the model.
-/

namespace Conststr

/-- Classification of a UTF-8 continuation byte (`10xxxxxx`), for byte
values below `0x100`. -/
def isCont (b : Nat) : Bool :=
  decide (0x80 ≤ b ∧ b < 0xC0)

/-- Modelled from the spec: the standard UTF-8 encoding of one Unicode
scalar value, as performed by the external `char::encode_utf8` used by
`String::insert` and by `&str` byte representations. -/
def encodeChar (c : Nat) : List Nat :=
  if c < 0x80 then
    [c]
  else if c < 0x800 then
    [0xC0 + c / 0x40, 0x80 + c % 0x40]
  else if c < 0x10000 then
    [0xE0 + c / 0x1000, 0x80 + c / 0x40 % 0x40, 0x80 + c % 0x40]
  else
    [0xF0 + c / 0x40000, 0x80 + c / 0x1000 % 0x40, 0x80 + c / 0x40 % 0x40, 0x80 + c % 0x40]

/-- The UTF-8 byte sequence of a sequence of scalar values: the byte view
of a Rust `&str` given by its characters. -/
def utf8Encode : List Nat → List Nat
  | [] => []
  | c :: cs => encodeChar c ++ utf8Encode cs

/-- A Unicode scalar value: below `0x110000` and not a surrogate. -/
def IsScalar (c : Nat) : Prop :=
  c < 0x110000 ∧ ¬(0xD800 ≤ c ∧ c < 0xE000)

instance (c : Nat) : Decidable (IsScalar c) := by
  unfold IsScalar; infer_instance

/-- All members of a list are Unicode scalar values (the characters of a
Rust `&str`). -/
def Scalars (cs : List Nat) : Prop :=
  ∀ c ∈ cs, IsScalar c

instance (cs : List Nat) : Decidable (Scalars cs) := by
  unfold Scalars; infer_instance

/-- `u8::leading_ones` for byte values: the number of leading one bits of
the 8-bit representation. -/
def leadingOnes8 (b : Nat) : Nat :=
  if !b.testBit 7 then 0
  else if !b.testBit 6 then 1
  else if !b.testBit 5 then 2
  else if !b.testBit 4 then 3
  else if !b.testBit 3 then 4
  else if !b.testBit 2 then 5
  else if !b.testBit 1 then 6
  else if !b.testBit 0 then 7
  else 8

/-- `utf8_char_len` from `src/utf8/mod.rs`: sequence length derived from
the leading byte. A high bit of zero gives one; otherwise the two lowest
bits are masked off (`MASK = 0b11111100`) and the leading ones counted. -/
def utf8_char_len (b : Nat) : Nat :=
  if b ≤ 0x7F then 1
  else leadingOnes8 (b &&& 0xFC)

/-- Modelled from the spec: `str::is_char_boundary` of the external core
library, used by the buffer's boundary assertions. An index is a boundary
iff it is zero, equals the length, or addresses a non-continuation
byte. -/
def strIsCharBoundary (bs : List Nat) (i : Nat) : Bool :=
  if i = 0 then true
  else
    match bs[i]? with
    | none => decide (i = bs.length)
    | some b => decide (b < 0x80 ∨ 0xC0 ≤ b)

/-- `decode_utf8` from `src/utf8/mod.rs`: decodes the character starting
at byte `index` of `buf`. The boundary assertion and the `unreachable!`
arm are modelled by `none`. The scalar is assembled from marker-stripping
XORs, shifts and ORs exactly as in the source. -/
def decode_utf8 (buf : List Nat) (index : Nat) : Option (Nat × Nat) :=
  if strIsCharBoundary buf index then
    match buf.drop index with
    | [] => none
    | o0 :: rest =>
      match utf8_char_len o0, rest with
      | 1, _ =>
        some (o0, 1)
      | 2, o1 :: _ =>
        some (((o0 ^^^ 0xC0) <<< 0x6) ||| (o1 ^^^ 0x80), 2)
      | 3, o1 :: o2 :: _ =>
        some ((((o0 ^^^ 0xE0) <<< 0xC) ||| ((o1 ^^^ 0x80) <<< 0x6)) ||| (o2 ^^^ 0x80), 3)
      | 4, o1 :: o2 :: o3 :: _ =>
        some (((((o0 ^^^ 0xF0) <<< 0x12) ||| ((o1 ^^^ 0x80) <<< 0xC)) ||| ((o2 ^^^ 0x80) <<< 0x6)) ||| (o3 ^^^ 0x80), 4)
      | _, _ => none
  else
    none

/-- Modelled from the spec: one validation step of the external
`core::str::from_utf8`, returning the scalar value and width of a valid
UTF-8 sequence at the front of the list, or `none` if the front is not a
valid (shortest-form, non-surrogate, in-range) UTF-8 sequence. -/
def decodeStrict : List Nat → Option (Nat × Nat)
  | [] => none
  | b0 :: rest =>
    if b0 < 0x80 then
      some (b0, 1)
    else if b0 < 0xC2 then
      none
    else if b0 < 0xE0 then
      match rest with
      | b1 :: _ =>
        if isCont b1 then
          some ((b0 - 0xC0) * 0x40 + (b1 - 0x80), 2)
        else none
      | _ => none
    else if b0 < 0xF0 then
      match rest with
      | b1 :: b2 :: _ =>
        if isCont b1 ∧ isCont b2 ∧
            0x800 ≤ (b0 - 0xE0) * 0x1000 + (b1 - 0x80) * 0x40 + (b2 - 0x80) ∧
            ¬(0xD800 ≤ (b0 - 0xE0) * 0x1000 + (b1 - 0x80) * 0x40 + (b2 - 0x80) ∧
              (b0 - 0xE0) * 0x1000 + (b1 - 0x80) * 0x40 + (b2 - 0x80) < 0xE000) then
          some ((b0 - 0xE0) * 0x1000 + (b1 - 0x80) * 0x40 + (b2 - 0x80), 3)
        else none
      | _ => none
    else if b0 < 0xF5 then
      match rest with
      | b1 :: b2 :: b3 :: _ =>
        if isCont b1 ∧ isCont b2 ∧ isCont b3 ∧
            0x10000 ≤ (b0 - 0xF0) * 0x40000 + (b1 - 0x80) * 0x1000 + (b2 - 0x80) * 0x40 + (b3 - 0x80) ∧
            (b0 - 0xF0) * 0x40000 + (b1 - 0x80) * 0x1000 + (b2 - 0x80) * 0x40 + (b3 - 0x80) < 0x110000 then
          some ((b0 - 0xF0) * 0x40000 + (b1 - 0x80) * 0x1000 + (b2 - 0x80) * 0x40 + (b3 - 0x80), 4)
        else none
      | _ => none
    else
      none

/-- Modelled from the spec: the scan of `core::str::from_utf8`, fuelled to
keep the recursion structural. Returns `none` if the whole list is valid
UTF-8, else `some i` where `i` is the offset at which validation fails.
The fuel never runs out when it is at least the length of the list. -/
def chopUtf8 : Nat → List Nat → Option Nat
  | _, [] => none
  | 0, _ :: _ => some 0
  | fuel + 1, bs@(_ :: _) =>
    match decodeStrict bs with
    | none => some 0
    | some (_, w) =>
      match chopUtf8 fuel (bs.drop w) with
      | none => none
      | some i => some (w + i)

/-- Modelled from the spec: `core::str::from_utf8` validation outcome on a
byte list — `none` for valid, `some i` for the error offset
(`Utf8Error::valid_up_to`). -/
def utf8ErrIndex (bs : List Nat) : Option Nat :=
  chopUtf8 bs.length bs

/-- A byte list is valid UTF-8. -/
def validUtf8 (bs : List Nat) : Bool :=
  (utf8ErrIndex bs).isNone

/-- `LengthError` from `src/error/length_error.rs`. -/
structure LengthError : Type where
  remaining : Nat
  count : Nat
deriving DecidableEq, Repr

/-- `Utf8Error` from `src/error/utf8_error.rs`. -/
structure Utf8Error : Type where
  value : Nat
  index : Nat
deriving DecidableEq, Repr

/-- `String<N>` from `src/string/mod.rs`: a length counter and a backing
byte array of `N` bytes (here: a list, with `buf.length = N` as part of
well-formedness). -/
structure String (N : Nat) : Type where
  len : Nat
  buf : List Nat
deriving DecidableEq, Repr

/-- The logical content `storage[0..length]`, i.e. the bytes exposed by
`as_bytes`/`as_str`. -/
def content {N : Nat} (s : String N) : List Nat :=
  s.buf.take s.len

/-- The two documented invariants of the buffer: the backing array has
exactly `N` bytes, `len ≤ N`, and the first `len` bytes are well-formed
UTF-8. -/
def Wf (N : Nat) (s : String N) : Prop :=
  s.buf.length = N ∧ s.len ≤ N ∧ validUtf8 (content s) = true

instance (N : Nat) (s : String N) : Decidable (Wf N s) := by
  unfold Wf; infer_instance

/-- `String::new`: the empty string over a zero-filled buffer. -/
def String.new (N : Nat) : String N :=
  ⟨0, List.replicate N 0⟩

/-- `String::from_str` (`fromText`): checks `s.len() ≤ N`, else fails with
`LengthError { remaining: N, count: len }`; on success copies the bytes
into a zero-filled buffer. The `&str` argument is given by its scalar
values. -/
def String.from_str (N : Nat) (s : List Nat) : Except LengthError (String N) :=
  let bytes := utf8Encode s
  let len := bytes.length
  if len > N then
    .error ⟨N, len⟩
  else
    .ok ⟨len, bytes ++ List.replicate (N - len) 0⟩

/-- `String::from_utf8` (`fromUtf8Bytes`): the compile-time `M ≤ N` assert
is modelled by `none`; the array is validated as UTF-8, an invalid array
yielding `Utf8Error { value: data[i], index: i }` at the validation offset
`i`. On valid data the call defers to `from_utf8_unchecked`, which reuses
the array when `N = M`; in its `N ≠ M` branch the statement
`buf.copy_from_slice(&data)` copies between slices of lengths `N` and `M`,
and `copy_from_slice` panics on unequal lengths — so every valid array
with `M < N` panics (modelled `none`). -/
def String.from_utf8 (N : Nat) (data : List Nat) : Option (Except Utf8Error (String N)) :=
  if data.length ≤ N then
    match utf8ErrIndex data with
    | some i => some (.error ⟨data.getD i 0, i⟩)
    | none =>
      if N = data.length then
        some (.ok ⟨data.length, data⟩)
      else
        none
  else
    none

/-- Overwrite the bytes of `buf` starting at offset `i` with `src`
(the effect of a bulk copy of `src` to `buf + i`). -/
def setRange (buf : List Nat) (i : Nat) (src : List Nat) : List Nat :=
  buf.take i ++ src ++ buf.drop (i + src.length)

/-- `String::insert_str` (`insertText`): panics (`none`) off character
boundaries; fails atomically with
`LengthError { remaining: N - len, count: s.len() }` when the addition
does not fit; otherwise shifts the suffix `[index, len)` right by the
addition's width (memmove) and copies the addition into the gap. -/
def String.insert_str {N : Nat} (self : String N) (index : Nat) (s : List Nat) :
    Option (String N × Option LengthError) :=
  if strIsCharBoundary (content self) index then
    let sBytes := utf8Encode s
    let sLen := sBytes.length
    let oldLen := self.len
    let newLen := oldLen + sLen
    if newLen > N then
      some (self, some ⟨N - oldLen, sLen⟩)
    else
      let buf1 :=
        if index < oldLen then
          setRange self.buf (index + sLen) ((self.buf.drop index).take (oldLen - index))
        else
          self.buf
      some (⟨newLen, setRange buf1 index sBytes⟩, none)
  else
    none

/-- `String::insert`: encodes the character and defers to `insert_str`
with the one-character string. -/
def String.insert {N : Nat} (self : String N) (index : Nat) (c : Nat) :
    Option (String N × Option LengthError) :=
  self.insert_str index [c]

/-- `String::push`: insertion at `index = len`. -/
def String.push {N : Nat} (self : String N) (c : Nat) :
    Option (String N × Option LengthError) :=
  self.insert self.len c

/-- `String::push_str` (`pushText`): insertion at `index = len`. -/
def String.push_str {N : Nat} (self : String N) (s : List Nat) :
    Option (String N × Option LengthError) :=
  self.insert_str self.len s

/-- `String::remove`: panics (`none`) when `index ≥ len` or off a
character boundary; otherwise decodes the character at `index`, shifts
the suffix `[index + width, len)` left to close the gap (memmove), and
returns the decoded character. -/
def String.remove {N : Nat} (self : String N) (index : Nat) :
    Option (String N × Nat) :=
  let oldLen := self.len
  if index < oldLen then
    if strIsCharBoundary (content self) index then
      match decode_utf8 (content self) index with
      | some (c, cLen) =>
        let next := index + cLen
        let buf1 :=
          if next < oldLen then
            setRange self.buf index ((self.buf.drop next).take (oldLen - next))
          else
            self.buf
        some (⟨oldLen - cLen, buf1⟩, c)
      | none => none
    else
      none
  else
    none

/-- The backward scan of `String::prev_char_boundary`: starting at `i`,
steps down while the byte masked with `0b11000000` equals `0b10000000`,
stopping at offset zero at the latest. -/
def prevScan (bs : List Nat) : Nat → Nat
  | 0 => 0
  | i + 1 =>
    if (bs.getD (i + 1) 0) &&& 0xC0 = 0x80 then prevScan bs i
    else i + 1

/-- `String::prev_char_boundary`: panics (`none`) past the end, else scans
backward from `index - 1` (saturating) over continuation bytes. -/
def String.prev_char_boundary {N : Nat} (self : String N) (index : Nat) : Option Nat :=
  if index ≤ self.len then
    some (prevScan (content self) (index - 1))
  else
    none

/-- `String::pop`: `none` result on the empty string, else removal at the
previous character boundary of `len`. The outer `Option` marks a panic of
the inner `remove` call. -/
def String.pop {N : Nat} (self : String N) : Option (String N × Option Nat) :=
  if self.len = 0 then
    some (self, none)
  else
    match self.prev_char_boundary self.len with
    | some index =>
      match self.remove index with
      | some (s, c) => some (s, some c)
      | none => none
    | none => none

/-- `String::truncate`: panics (`none`) off a character boundary, else
sets the length (no byte clearing). -/
def String.truncate {N : Nat} (self : String N) (len : Nat) : Option (String N) :=
  if strIsCharBoundary (content self) len then
    some ⟨len, self.buf⟩
  else
    none

/-- `String::clear`: sets the length to zero. -/
def String.clear {N : Nat} (self : String N) : String N :=
  ⟨0, self.buf⟩

/-- Modelled from the spec: the external `u8::to_ascii_uppercase` byte
map used by `str::make_ascii_uppercase` — ASCII lowercase letters are
shifted to uppercase, all other bytes unchanged. -/
def toAsciiUpperByte (b : Nat) : Nat :=
  if 0x61 ≤ b ∧ b ≤ 0x7A then b - 0x20 else b

/-- Modelled from the spec: the external `u8::to_ascii_lowercase` byte
map used by `str::make_ascii_lowercase`. -/
def toAsciiLowerByte (b : Nat) : Nat :=
  if 0x41 ≤ b ∧ b ≤ 0x5A then b + 0x20 else b

/-- `String::make_ascii_uppercase`: maps the content bytes in place
through the ASCII uppercase byte map; the unused tail is untouched. -/
def String.make_ascii_uppercase {N : Nat} (self : String N) : String N :=
  ⟨self.len, (content self).map toAsciiUpperByte ++ self.buf.drop self.len⟩

/-- `String::make_ascii_lowercase`: maps the content bytes in place
through the ASCII lowercase byte map; the unused tail is untouched. -/
def String.make_ascii_lowercase {N : Nat} (self : String N) : String N :=
  ⟨self.len, (content self).map toAsciiLowerByte ++ self.buf.drop self.len⟩

/-- The loop body of `FromIterator<char> for String<N>`: pushes each
character, breaking silently on the first failed push. -/
def fromIterGo {N : Nat} (self : String N) : List Nat → String N
  | [] => self
  | c :: cs =>
    match self.push c with
    | some (s, none) => fromIterGo s cs
    | some (s, some _) => s
    | none => self

/-- `FromIterator<char> for String<N>`: starts from `String::new` and
pushes the characters in order, stopping silently on the first overflow. -/
def String.from_iter (N : Nat) (cs : List Nat) : String N :=
  fromIterGo (String.new N) cs

/-- A sequence of `push` calls, `none` if any push fails or panics. -/
def pushAll {N : Nat} (s : String N) : List Nat → Option (String N)
  | [] => some s
  | c :: cs =>
    match s.push c with
    | some (s1, none) => pushAll s1 cs
    | _ => none

/-- `k` consecutive `pop` calls, collecting the popped characters in call
order; `none` if any pop panics or finds the string empty. -/
def popN {N : Nat} (s : String N) : Nat → Option (String N × List Nat)
  | 0 => some (s, [])
  | k + 1 =>
    match s.pop with
    | some (s1, some c) =>
      match popN s1 k with
      | some (s2, l) => some (s2, c :: l)
      | none => none
    | _ => none

/-! ### Bit-level arithmetic-/

set_option maxRecDepth 100000
set_option maxHeartbeats 1000000

theorem xor_strip_80 : ∀ b < 256, 0x80 ≤ b → b < 0xC0 → b ^^^ 0x80 = b - 0x80 := by decide

theorem xor_strip_C0 : ∀ b < 256, 0xC0 ≤ b → b < 0xE0 → b ^^^ 0xC0 = b - 0xC0 := by decide

theorem xor_strip_E0 : ∀ b < 256, 0xE0 ≤ b → b < 0xF0 → b ^^^ 0xE0 = b - 0xE0 := by decide

theorem xor_strip_F0 : ∀ b < 256, 0xF0 ≤ b → b < 0xF8 → b ^^^ 0xF0 = b - 0xF0 := by decide

theorem mask_cont_iff : ∀ b < 256, (b &&& 0xC0 = 0x80) ↔ (0x80 ≤ b ∧ b < 0xC0) := by decide

theorem charlen_one : ∀ b, b < 0x80 → utf8_char_len b = 1 := by
  intro b hb
  simp [utf8_char_len, Nat.lt_succ_iff.mp]
  omega

theorem charlen_two : ∀ b < 256, 0xC0 ≤ b → b < 0xE0 → utf8_char_len b = 2 := by decide

theorem charlen_three : ∀ b < 256, 0xE0 ≤ b → b < 0xF0 → utf8_char_len b = 3 := by decide

theorem charlen_four : ∀ b < 256, 0xF0 ≤ b → b < 0xF8 → utf8_char_len b = 4 := by decide

/-- An OR whose right operand fits below the left shift is an addition. -/
theorem lor_shiftLeft_add (k a b : Nat) (hb : b < 2 ^ k) :
    (a <<< k) ||| b = a * 2 ^ k + b := by
  induction k generalizing a b with
  | zero =>
    have hb0 : b = 0 := by simpa using hb
    subst hb0
    simp [Nat.shiftLeft_eq]
  | succ k ih =>
    have hpow : 2 ^ (k + 1) = 2 * 2 ^ k := by rw [pow_succ]; ring
    have hb2 : b / 2 < 2 ^ k := by omega
    have h1 : a <<< (k + 1) = Nat.bit false (a <<< k) := by
      simp only [Nat.shiftLeft_eq, Nat.bit_val, Bool.toNat_false, hpow]
      ring
    have h2 : b = Nat.bit (decide (b % 2 = 1)) (b >>> 1) :=
      (Nat.bit_decide_mod_two_eq_one_shiftRight_one b).symm
    have hx : a * 2 ^ (k + 1) = 2 * (a * 2 ^ k) := by rw [hpow]; ring
    rw [h1]
    conv_lhs => rw [h2]
    rw [Nat.lor_bit, Bool.false_or, Nat.shiftRight_one, ih a (b / 2) hb2, Nat.bit_val, hx]
    rcases Nat.mod_two_eq_zero_or_one b with h | h <;> simp [h] <;> omega

/-- Same fact with the shift written as a multiplication. -/
theorem lor_mul_add (k a b : Nat) (hb : b < 2 ^ k) :
    (a * 2 ^ k) ||| b = a * 2 ^ k + b := by
  rw [← Nat.shiftLeft_eq, lor_shiftLeft_add k a b hb, Nat.shiftLeft_eq]

/-! ### Shape of `encodeChar` -/

theorem encodeChar_one (c : Nat) (h : c < 0x80) : encodeChar c = [c] := by
  simp only [encodeChar]
  split_ifs <;> first | rfl | omega

theorem encodeChar_two (c : Nat) (h1 : 0x80 ≤ c) (h2 : c < 0x800) :
    encodeChar c = [0xC0 + c / 0x40, 0x80 + c % 0x40] := by
  simp only [encodeChar]
  split_ifs <;> first | rfl | omega

theorem encodeChar_three (c : Nat) (h1 : 0x800 ≤ c) (h2 : c < 0x10000) :
    encodeChar c = [0xE0 + c / 0x1000, 0x80 + c / 0x40 % 0x40, 0x80 + c % 0x40] := by
  simp only [encodeChar]
  split_ifs <;> first | rfl | omega

theorem encodeChar_four (c : Nat) (h1 : 0x10000 ≤ c) :
    encodeChar c = [0xF0 + c / 0x40000, 0x80 + c / 0x1000 % 0x40, 0x80 + c / 0x40 % 0x40, 0x80 + c % 0x40] := by
  simp only [encodeChar]
  split_ifs <;> first | rfl | omega

/-! ### `decodeStrict` against `encodeChar` -/

/-- The strict decoder accepts the encoding of any scalar value and
returns that scalar together with the encoding's width. -/
theorem decodeStrict_encode (c : Nat) (hc : IsScalar c) (r : List Nat) :
    decodeStrict (encodeChar c ++ r) = some (c, (encodeChar c).length) := by
  obtain ⟨hlt, hsur⟩ := hc
  rcases Nat.lt_or_ge c 0x80 with h | h
  · rw [encodeChar_one c h]
    simp only [decodeStrict, List.cons_append, List.nil_append, List.length_cons, List.length_nil]
    split_ifs <;> simp_all
  · rcases Nat.lt_or_ge c 0x800 with h2 | h2
    · rw [encodeChar_two c h h2]
      simp only [decodeStrict, List.cons_append, List.nil_append, isCont,
        List.length_cons, List.length_nil]
      split_ifs <;> simp_all <;> omega
    · rcases Nat.lt_or_ge c 0x10000 with h3 | h3
      · rw [encodeChar_three c h2 h3]
        simp only [decodeStrict, List.cons_append, List.nil_append, isCont,
          List.length_cons, List.length_nil]
        split_ifs <;> simp_all <;> omega
      · rw [encodeChar_four c h3]
        simp only [decodeStrict, List.cons_append, List.nil_append, isCont,
          List.length_cons, List.length_nil]
        split_ifs <;> simp_all <;> omega

/-- Anything the strict decoder accepts is the encoding of the returned
scalar value: the consumed bytes are exactly `encodeChar c`. -/
theorem decodeStrict_sound :
    ∀ bs c w, decodeStrict bs = some (c, w) →
      IsScalar c ∧ 1 ≤ w ∧ w ≤ bs.length ∧ bs.take w = encodeChar c := by
  intro bs c w h
  rcases bs with _ | ⟨b0, r1⟩
  · exact Option.noConfusion h
  rcases r1 with _ | ⟨b1, r2⟩ <;>
    [skip; rcases r2 with _ | ⟨b2, r3⟩] <;>
    [skip; skip; rcases r3 with _ | ⟨b3, r4⟩] <;>
  · simp only [decodeStrict, isCont, decide_eq_true_eq] at h
    split_ifs at h <;> try exact Option.noConfusion h
    all_goals
      rw [Option.some.injEq, Prod.mk.injEq] at h
      obtain ⟨hc, hw⟩ := h
      subst hc hw
    all_goals refine ⟨⟨by omega, by omega⟩, by omega, by simp, ?_⟩
    all_goals
      simp only [encodeChar]
      split_ifs
    all_goals simp only [List.take_succ_cons, List.take_zero, List.cons.injEq, and_true]
    all_goals first | omega | (exfalso; omega)

/-! ### The UTF-8 validator -/

theorem encodeChar_ne_nil (c : Nat) : encodeChar c ≠ [] := by
  simp only [encodeChar]
  split_ifs <;> simp

theorem length_encodeChar_pos (c : Nat) : 1 ≤ (encodeChar c).length := by
  simp only [encodeChar]
  split_ifs <;> simp

theorem length_encodeChar_le (c : Nat) : (encodeChar c).length ≤ 4 := by
  simp only [encodeChar]
  split_ifs <;> simp

theorem utf8Encode_append (cs ds : List Nat) :
    utf8Encode (cs ++ ds) = utf8Encode cs ++ utf8Encode ds := by
  induction cs with
  | nil => rfl
  | cons c cs ih => simp [utf8Encode, ih]

theorem chopUtf8_nil (f : Nat) : chopUtf8 f [] = none := by
  cases f <;> rfl

/-- The strict decoder succeeds on any list whose prefix is the encoding
of a scalar value. -/
theorem decodeStrict_of_take_encode (bs : List Nat) (c : Nat) (hc : IsScalar c)
    (h : bs.take (encodeChar c).length = encodeChar c) :
    decodeStrict bs = some (c, (encodeChar c).length) := by
  conv_lhs => rw [← List.take_append_drop (encodeChar c).length bs, h]
  exact decodeStrict_encode c hc _

/-- If a take of `bs` is `A ++ B`, then the take of `A`'s length is `A`. -/
theorem take_of_take_append (bs A B : List Nat) (m : Nat) (h : bs.take m = A ++ B) :
    bs.take A.length = A := by
  have h1 := congrArg (List.take A.length) h
  rw [List.take_take, List.take_left] at h1
  have h2 : A.length ≤ m := by
    have := congrArg List.length h
    simp at this
    omega
  rwa [min_eq_left h2] at h1

/-- The fuel does not matter once it covers the length of the list. -/
theorem chopUtf8_congr : ∀ f1 f2 bs, bs.length ≤ f1 → bs.length ≤ f2 →
    chopUtf8 f1 bs = chopUtf8 f2 bs := by
  intro f1
  induction f1 with
  | zero =>
    intro f2 bs h1 _
    have : bs = [] := by
      cases bs <;> simp_all
    subst this
    rw [chopUtf8_nil, chopUtf8_nil]
  | succ f1 ih =>
    intro f2 bs h1 h2
    rcases bs with _ | ⟨b, t⟩
    · rw [chopUtf8_nil, chopUtf8_nil]
    rcases f2 with _ | f2
    · simp at h2
    simp only [chopUtf8]
    rcases hd : decodeStrict (b :: t) with _ | ⟨c, w⟩
    · rfl
    obtain ⟨_, hw1, hw2, _⟩ := decodeStrict_sound _ _ _ hd
    have hlen : ((b :: t).drop w).length ≤ f1 := by
      simp only [List.length_drop, List.length_cons]
      simp only [List.length_cons] at h1 hw2
      omega
    have hlen2 : ((b :: t).drop w).length ≤ f2 := by
      simp only [List.length_drop, List.length_cons]
      simp only [List.length_cons] at h2 hw2
      omega
    dsimp only
    rw [ih f2 _ hlen hlen2]

/-- The validator scan accepts the encoding of any scalar sequence. -/
theorem chopUtf8_encode : ∀ cs f, Scalars cs → (utf8Encode cs).length ≤ f →
    chopUtf8 f (utf8Encode cs) = none := by
  intro cs
  induction cs with
  | nil => intro f _ _; exact chopUtf8_nil f
  | cons c cs ih =>
    intro f hsc hf
    have hc : IsScalar c := hsc c (by simp)
    have hsc' : Scalars cs := fun x hx => hsc x (by simp [hx])
    have hform : utf8Encode (c :: cs) = encodeChar c ++ utf8Encode cs := rfl
    have hne : utf8Encode (c :: cs) ≠ [] := by
      rw [hform]
      rcases hE : encodeChar c with _ | _
      · exact absurd hE (encodeChar_ne_nil c)
      · simp
    obtain ⟨b, t, hbt⟩ : ∃ b t, utf8Encode (c :: cs) = b :: t := by
      rcases hx : utf8Encode (c :: cs) with _ | ⟨b, t⟩
      · exact absurd hx hne
      · exact ⟨b, t, rfl⟩
    have hwpos := length_encodeChar_pos c
    have hlen : (utf8Encode (c :: cs)).length = (encodeChar c).length + (utf8Encode cs).length := by
      rw [hform]; simp
    rcases f with _ | f
    · have hpos : 0 < (utf8Encode (c :: cs)).length := by rw [hbt]; simp
      omega
    rw [hbt]
    simp only [chopUtf8]
    rw [← hbt, hform, decodeStrict_encode c hc]
    dsimp only
    rw [List.drop_left, ih f hsc' (by omega)]

/-- The encoding of any scalar sequence is valid UTF-8. -/
theorem validUtf8_encode (cs : List Nat) (h : Scalars cs) :
    validUtf8 (utf8Encode cs) = true := by
  rw [validUtf8, utf8ErrIndex, chopUtf8_encode cs _ h (le_refl _)]
  rfl

theorem validUtf8_elim_aux : ∀ f bs, bs.length ≤ f → validUtf8 bs = true →
    ∃ cs, Scalars cs ∧ bs = utf8Encode cs := by
  intro f
  induction f with
  | zero =>
    intro bs h1 _
    have : bs = [] := by cases bs <;> simp_all
    exact ⟨[], by simp [Scalars], by simp [this, utf8Encode]⟩
  | succ f ih =>
    intro bs h1 h2
    rcases bs with _ | ⟨b, t⟩
    · exact ⟨[], by simp [Scalars], by simp [utf8Encode]⟩
    rw [validUtf8, utf8ErrIndex,
      chopUtf8_congr (b :: t).length (f + 1) _ (le_refl _) h1] at h2
    simp only [chopUtf8] at h2
    rcases hd : decodeStrict (b :: t) with _ | ⟨c, w⟩
    · rw [hd] at h2; simp at h2
    rw [hd] at h2
    dsimp only at h2
    obtain ⟨hsc, hw1, hw2, htake⟩ := decodeStrict_sound _ _ _ hd
    rcases hrec : chopUtf8 f ((b :: t).drop w) with _ | i
    · -- the tail is valid
      have hlen : ((b :: t).drop w).length ≤ f := by
        simp only [List.length_drop, List.length_cons]
        simp only [List.length_cons] at h1 hw2
        omega
      have hvalid : validUtf8 ((b :: t).drop w) = true := by
        rw [validUtf8, utf8ErrIndex, chopUtf8_congr _ f _ (le_refl _) hlen, hrec]
        rfl
      obtain ⟨cs, hcs1, hcs2⟩ := ih _ hlen hvalid
      refine ⟨c :: cs, ?_, ?_⟩
      · intro x hx
        rcases List.mem_cons.mp hx with hx | hx
        · exact hx ▸ hsc
        · exact hcs1 x hx
      · have : (b :: t) = (b :: t).take w ++ (b :: t).drop w :=
          (List.take_append_drop w (b :: t)).symm
        rw [this, htake, hcs2]
        rfl
    · rw [hrec] at h2
      simp at h2

/-- Wrapper of `validUtf8_elim_aux` at fuel `bs.length`. -/
theorem validUtf8_elim (bs : List Nat) (h : validUtf8 bs = true) :
    ∃ cs, Scalars cs ∧ bs = utf8Encode cs :=
  validUtf8_elim_aux bs.length bs (le_refl _) h

/-- Characterisation of a validation failure: the bytes before the error
offset decompose into scalar encodings, and the strict decoder rejects
the remainder, which is nonempty. -/
theorem chopUtf8_some : ∀ f bs i, bs.length ≤ f → chopUtf8 f bs = some i →
    ∃ cs, Scalars cs ∧ bs.take i = utf8Encode cs ∧
      decodeStrict (bs.drop i) = none ∧ i < bs.length := by
  intro f
  induction f with
  | zero =>
    intro bs i h1 h2
    have : bs = [] := by cases bs <;> simp_all
    subst this
    rw [chopUtf8_nil] at h2
    exact Option.noConfusion h2
  | succ f ih =>
    intro bs i h1 h2
    rcases bs with _ | ⟨b, t⟩
    · rw [chopUtf8_nil] at h2
      exact Option.noConfusion h2
    simp only [chopUtf8] at h2
    rcases hd : decodeStrict (b :: t) with _ | ⟨c, w⟩
    · rw [hd] at h2
      dsimp only at h2
      rw [Option.some.injEq] at h2
      subst h2
      exact ⟨[], by simp [Scalars], by simp [utf8Encode], by simpa using hd, by simp⟩
    rw [hd] at h2
    dsimp only at h2
    obtain ⟨hsc, hw1, hw2, htake⟩ := decodeStrict_sound _ _ _ hd
    rcases hrec : chopUtf8 f ((b :: t).drop w) with _ | i'
    · rw [hrec] at h2
      exact Option.noConfusion h2
    rw [hrec] at h2
    dsimp only at h2
    rw [Option.some.injEq] at h2
    subst h2
    have hlen : ((b :: t).drop w).length ≤ f := by
      simp only [List.length_drop, List.length_cons]
      simp only [List.length_cons] at h1 hw2
      omega
    obtain ⟨cs, hcs1, hcs2, hcs3, hcs4⟩ := ih _ _ hlen hrec
    refine ⟨c :: cs, ?_, ?_, ?_, ?_⟩
    · intro x hx
      rcases List.mem_cons.mp hx with hx | hx
      · exact hx ▸ hsc
      · exact hcs1 x hx
    · rw [List.take_add, htake, hcs2]
      rfl
    · rw [← List.drop_drop, hcs3]
    · simp only [List.length_drop, List.length_cons] at hcs4 ⊢
      omega

/-- No prefix reaching strictly past a rejection point is an encoding of
scalars: the validator's error offset bounds every valid prefix. -/
theorem valid_longer_aux : ∀ (cs ds bs : List Nat) (i j : Nat), Scalars cs → Scalars ds →
    bs.take i = utf8Encode cs → decodeStrict (bs.drop i) = none →
    i < j → j ≤ bs.length → bs.take j = utf8Encode ds → False := by
  intro cs
  induction cs with
  | nil =>
    intro ds bs i j _ hds htakei hdec hij hj htakej
    have hi0 : i = 0 := by
      have h := congrArg List.length htakei
      simp only [List.length_take, utf8Encode, List.length_nil] at h
      omega
    subst hi0
    simp only [List.drop_zero] at hdec
    rcases ds with _ | ⟨d, ds'⟩
    · have h := congrArg List.length htakej
      simp only [List.length_take, utf8Encode, List.length_nil] at h
      omega
    · have hd : IsScalar d := hds d (by simp)
      have htk : bs.take (encodeChar d).length = encodeChar d :=
        take_of_take_append bs (encodeChar d) (utf8Encode ds') j (by rw [htakej]; rfl)
      have h := decodeStrict_of_take_encode bs d hd htk
      rw [hdec] at h
      exact Option.noConfusion h
  | cons c cs' ih =>
    intro ds bs i j hsc hds htakei hdec hij hj htakej
    have hc : IsScalar c := hsc c (by simp)
    have hsc' : Scalars cs' := fun x hx => hsc x (by simp [hx])
    have htkc : bs.take (encodeChar c).length = encodeChar c :=
      take_of_take_append bs (encodeChar c) (utf8Encode cs') i (by rw [htakei]; rfl)
    rcases ds with _ | ⟨d, ds'⟩
    · have h := congrArg List.length htakej
      simp only [List.length_take, utf8Encode, List.length_nil] at h
      omega
    have hd : IsScalar d := hds d (by simp)
    have hds' : Scalars ds' := fun x hx => hds x (by simp [hx])
    have htkd : bs.take (encodeChar d).length = encodeChar d :=
      take_of_take_append bs (encodeChar d) (utf8Encode ds') j (by rw [htakej]; rfl)
    have h1 := decodeStrict_of_take_encode bs c hc htkc
    have h2 := decodeStrict_of_take_encode bs d hd htkd
    rw [h1, Option.some.injEq, Prod.mk.injEq] at h2
    obtain ⟨hcd, hw⟩ := h2
    subst hcd
    have hwpos := length_encodeChar_pos c
    have hchari : i = (encodeChar c).length + (utf8Encode cs').length := by
      have h := congrArg List.length htakei
      simp only [List.length_take, utf8Encode, List.length_append] at h
      omega
    have hcharj : j = (encodeChar c).length + (utf8Encode ds').length := by
      have h := congrArg List.length htakej
      simp only [List.length_take, utf8Encode, List.length_append, ← hw] at h
      omega
    refine ih ds' (bs.drop (encodeChar c).length)
      (i - (encodeChar c).length) (j - (encodeChar c).length) hsc' hds' ?_ ?_ ?_ ?_ ?_
    · have h := congrArg (List.drop (encodeChar c).length) htakei
      rw [List.drop_take] at h
      rw [h]
      show List.drop (encodeChar c).length (utf8Encode (c :: cs')) = _
      rw [show utf8Encode (c :: cs') = encodeChar c ++ utf8Encode cs' from rfl,
        List.drop_left]
    · rw [List.drop_drop]
      have : (encodeChar c).length + (i - (encodeChar c).length) = i := by omega
      rw [this]
      exact hdec
    · omega
    · simp only [List.length_drop]
      omega
    · have h := congrArg (List.drop (encodeChar c).length) htakej
      rw [List.drop_take] at h
      rw [h]
      show List.drop (encodeChar c).length (utf8Encode (c :: ds')) = _
      rw [show utf8Encode (c :: ds') = encodeChar c ++ utf8Encode ds' from rfl,
        List.drop_left]

/-! ### Character boundaries of encoded strings -/

theorem encodeChar_head_class (c : Nat) :
    ∀ b t, encodeChar c = b :: t → (b < 0x80 ∨ 0xC0 ≤ b) := by
  intro b t h
  simp only [encodeChar] at h
  split_ifs at h <;> (rw [List.cons.injEq] at h; obtain ⟨hb, -⟩ := h; omega)

theorem utf8Encode_head_class (cs : List Nat) :
    ∀ b t, utf8Encode cs = b :: t → (b < 0x80 ∨ 0xC0 ≤ b) := by
  intro b t h
  rcases cs with _ | ⟨c, cs'⟩
  · exact absurd h (by simp [utf8Encode])
  · have hform : utf8Encode (c :: cs') = encodeChar c ++ utf8Encode cs' := rfl
    rcases hE : encodeChar c with _ | ⟨b0, t0⟩
    · exact absurd hE (encodeChar_ne_nil c)
    · rw [hform, hE] at h
      simp only [List.cons_append, List.cons.injEq] at h
      obtain ⟨hb, -⟩ := h
      exact hb ▸ encodeChar_head_class c b0 t0 hE

theorem encodeChar_getD_cont (c i : Nat) (h1 : 1 ≤ i) (h2 : i < (encodeChar c).length) :
    0x80 ≤ (encodeChar c).getD i 0 ∧ (encodeChar c).getD i 0 < 0xC0 := by
  simp only [encodeChar] at h2 ⊢
  split_ifs at h2 ⊢ <;> simp only [List.length_cons, List.length_nil] at h2 <;>
    interval_cases i <;> simp [List.getD] <;> omega

theorem strIsCharBoundary_zero (bs : List Nat) : strIsCharBoundary bs 0 = true := rfl

theorem strIsCharBoundary_length (bs : List Nat) :
    strIsCharBoundary bs bs.length = true := by
  unfold strIsCharBoundary
  by_cases h0 : bs.length = 0
  · simp [h0]
  · rw [if_neg h0, List.getElem?_eq_none (le_refl _)]
    simp

theorem strIsCharBoundary_le (bs : List Nat) (i : Nat)
    (h : strIsCharBoundary bs i = true) : i ≤ bs.length := by
  unfold strIsCharBoundary at h
  by_cases h0 : i = 0
  · omega
  · rw [if_neg h0] at h
    rcases hidx : bs[i]? with _ | b
    · rw [hidx] at h
      simp at h
      omega
    · exact le_of_lt (List.getElem?_eq_some.mp hidx).1

/-- Boundaries shift across a fully consumed front block, provided what
follows starts with a non-continuation byte. -/
theorem strIsCharBoundary_append (A bs : List Nat) (i : Nat) (hA : A.length ≤ i)
    (hhead : ∀ b t, bs = b :: t → (b < 0x80 ∨ 0xC0 ≤ b)) :
    strIsCharBoundary (A ++ bs) i = strIsCharBoundary bs (i - A.length) := by
  have hidx : (A ++ bs)[i]? = bs[i - A.length]? := List.getElem?_append_right hA
  unfold strIsCharBoundary
  rw [hidx]
  by_cases h0 : i = 0
  · subst h0
    have hA0 : A.length = 0 := by omega
    simp [hA0]
  · rw [if_neg h0]
    by_cases h1 : i - A.length = 0
    · rw [if_pos h1]
      rcases hbs : bs with _ | ⟨b, t⟩
      · rw [h1, List.getElem?_eq_none (by simp)]
        simp only [List.length_append, List.length_nil]
        simp
        omega
      · rw [h1]
        simp only [List.getElem?_cons_zero]
        simpa using hhead b t hbs
    · rw [if_neg h1]
      rcases hbs : bs[i - A.length]? with _ | b
      · simp only [List.length_append, decide_eq_decide]
        omega
      · rfl

/-- A byte offset of an encoded scalar sequence is a character boundary
iff it is the encoded length of a prefix of the sequence. -/
theorem boundary_encode : ∀ (cs : List Nat) (i : Nat), Scalars cs →
    (strIsCharBoundary (utf8Encode cs) i = true ↔
      ∃ cs1 cs2, cs = cs1 ++ cs2 ∧ i = (utf8Encode cs1).length) := by
  intro cs
  induction cs with
  | nil =>
    intro i _
    constructor
    · intro h
      have hle := strIsCharBoundary_le _ _ h
      simp only [utf8Encode, List.length_nil] at hle
      exact ⟨[], [], rfl, by simpa using hle⟩
    · rintro ⟨cs1, cs2, hsplit, hi⟩
      have hc1 : cs1 = [] := by
        rcases cs1 with _ | _
        · rfl
        · exact absurd hsplit (by simp)
      subst hc1
      simp only [utf8Encode, List.length_nil] at hi
      subst hi
      exact strIsCharBoundary_zero _
  | cons c cs' ih =>
    intro i hsc
    have hc : IsScalar c := hsc c (by simp)
    have hsc' : Scalars cs' := fun x hx => hsc x (by simp [hx])
    have hform : utf8Encode (c :: cs') = encodeChar c ++ utf8Encode cs' := rfl
    have hwpos := length_encodeChar_pos c
    rcases Nat.lt_or_ge i (encodeChar c).length with hlt | hge
    · -- inside the first character
      by_cases h0 : i = 0
      · subst h0
        constructor
        · intro _
          exact ⟨[], c :: cs', rfl, by simp [utf8Encode]⟩
        · intro _
          exact strIsCharBoundary_zero _
      · -- a continuation byte: no boundary, and no decomposition
        have hcont := encodeChar_getD_cont c i (by omega) hlt
        have hbyte : (utf8Encode (c :: cs'))[i]? = some ((encodeChar c).getD i 0) := by
          rw [hform, List.getElem?_append_left hlt, List.getD_eq_getElem?_getD,
            List.getElem?_eq_getElem hlt]
          rfl
        constructor
        · intro h
          unfold strIsCharBoundary at h
          rw [if_neg h0, hbyte] at h
          simp at h hcont
          omega
        · rintro ⟨cs1, cs2, hsplit, hi⟩
          rcases cs1 with _ | ⟨c1, cs1'⟩
          · simp [utf8Encode] at hi
            omega
          · rw [List.cons_append, List.cons.injEq] at hsplit
            obtain ⟨hc1, -⟩ := hsplit
            subst hc1
            have : (utf8Encode (c :: cs1')).length =
                (encodeChar c).length + (utf8Encode cs1').length := by
              simp [utf8Encode]
            omega
    · -- at or past the first character: shift
      have hshift := strIsCharBoundary_append (encodeChar c) (utf8Encode cs') i hge
        (utf8Encode_head_class cs')
      rw [hform, hshift, ih (i - (encodeChar c).length) hsc']
      constructor
      · rintro ⟨cs1, cs2, hsplit, hi⟩
        refine ⟨c :: cs1, cs2, by rw [hsplit, List.cons_append], ?_⟩
        have : (utf8Encode (c :: cs1)).length =
            (encodeChar c).length + (utf8Encode cs1).length := by
          simp [utf8Encode]
        omega
      · rintro ⟨cs1, cs2, hsplit, hi⟩
        rcases cs1 with _ | ⟨c1, cs1'⟩
        · simp only [utf8Encode, List.length_nil] at hi
          omega
        · rw [List.cons_append, List.cons.injEq] at hsplit
          obtain ⟨hc1, hrest⟩ := hsplit
          subst hc1
          refine ⟨cs1', cs2, hrest, ?_⟩
          have : (utf8Encode (c :: cs1')).length =
              (encodeChar c).length + (utf8Encode cs1').length := by
            simp [utf8Encode]
          omega

/-! ### Correctness of the manual decoder -/

/-- The masked leading-ones length of the leading byte equals the width of
the encoding. -/
theorem charlen_encode_head (c : Nat) (hc : IsScalar c) :
    utf8_char_len ((encodeChar c).getD 0 0) = (encodeChar c).length := by
  obtain ⟨hlt, -⟩ := hc
  rcases Nat.lt_or_ge c 0x80 with h | h
  · rw [encodeChar_one c h]
    simp only [List.getD_cons_zero, List.length_cons, List.length_nil]
    rw [charlen_one c h]
  · rcases Nat.lt_or_ge c 0x800 with h2 | h2
    · rw [encodeChar_two c h h2]
      simp only [List.getD_cons_zero]
      rw [charlen_two (0xC0 + c / 0x40) (by omega) (by omega) (by omega)]
      rfl
    · rcases Nat.lt_or_ge c 0x10000 with h3 | h3
      · rw [encodeChar_three c h2 h3]
        simp only [List.getD_cons_zero]
        rw [charlen_three (0xE0 + c / 0x1000) (by omega) (by omega) (by omega)]
        rfl
      · rw [encodeChar_four c h3]
        simp only [List.getD_cons_zero]
        rw [charlen_four (0xF0 + c / 0x40000) (by omega) (by omega) (by omega)]
        rfl

/-- `decode_utf8` at the start of an embedded scalar encoding returns that
scalar and its width. -/
theorem decode_utf8_at (full A R : List Nat) (c : Nat) (hc : IsScalar c)
    (hfull : full = A ++ (encodeChar c ++ R))
    (hbound : strIsCharBoundary full A.length = true) :
    decode_utf8 full A.length = some (c, (encodeChar c).length) := by
  obtain ⟨hlt, hsur⟩ := hc
  have hdrop : full.drop A.length = encodeChar c ++ R := by
    rw [hfull, List.drop_left]
  unfold decode_utf8
  rw [if_pos hbound, hdrop]
  rcases Nat.lt_or_ge c 0x80 with h | h
  · rw [encodeChar_one c h]
    dsimp only [List.cons_append, List.nil_append]
    rw [charlen_one c h]
    rfl
  · rcases Nat.lt_or_ge c 0x800 with h2 | h2
    · rw [encodeChar_two c h h2]
      dsimp only [List.cons_append, List.nil_append]
      rw [charlen_two (0xC0 + c / 0x40) (by omega) (by omega) (by omega)]
      dsimp only
      rw [Option.some.injEq, Prod.mk.injEq]
      refine ⟨?_, rfl⟩
      rw [xor_strip_C0 (0xC0 + c / 0x40) (by omega) (by omega) (by omega),
        xor_strip_80 (0x80 + c % 0x40) (by omega) (by omega) (by omega),
        Nat.shiftLeft_eq,
        lor_mul_add 6 (0xC0 + c / 0x40 - 0xC0) (0x80 + c % 0x40 - 0x80) (by omega)]
      omega
    · rcases Nat.lt_or_ge c 0x10000 with h3 | h3
      · rw [encodeChar_three c h2 h3]
        dsimp only [List.cons_append, List.nil_append]
        rw [charlen_three (0xE0 + c / 0x1000) (by omega) (by omega) (by omega)]
        dsimp only
        rw [Option.some.injEq, Prod.mk.injEq]
        refine ⟨?_, rfl⟩
        rw [xor_strip_E0 (0xE0 + c / 0x1000) (by omega) (by omega) (by omega),
          xor_strip_80 (0x80 + c / 0x40 % 0x40) (by omega) (by omega) (by omega),
          xor_strip_80 (0x80 + c % 0x40) (by omega) (by omega) (by omega)]
        rw [Nat.shiftLeft_eq, Nat.shiftLeft_eq,
          lor_mul_add 12 (0xE0 + c / 0x1000 - 0xE0)
            ((0x80 + c / 0x40 % 0x40 - 0x80) * 2 ^ 6) (by omega)]
        have hre : (0xE0 + c / 0x1000 - 0xE0) * 2 ^ 12 +
            (0x80 + c / 0x40 % 0x40 - 0x80) * 2 ^ 6 =
            ((0xE0 + c / 0x1000 - 0xE0) * 2 ^ 6 + (0x80 + c / 0x40 % 0x40 - 0x80)) * 2 ^ 6 := by
          ring
        rw [hre, lor_mul_add 6 _ (0x80 + c % 0x40 - 0x80) (by omega)]
        omega
      · rw [encodeChar_four c h3]
        dsimp only [List.cons_append, List.nil_append]
        rw [charlen_four (0xF0 + c / 0x40000) (by omega) (by omega) (by omega)]
        dsimp only
        rw [Option.some.injEq, Prod.mk.injEq]
        refine ⟨?_, rfl⟩
        rw [xor_strip_F0 (0xF0 + c / 0x40000) (by omega) (by omega) (by omega),
          xor_strip_80 (0x80 + c / 0x1000 % 0x40) (by omega) (by omega) (by omega),
          xor_strip_80 (0x80 + c / 0x40 % 0x40) (by omega) (by omega) (by omega),
          xor_strip_80 (0x80 + c % 0x40) (by omega) (by omega) (by omega)]
        rw [Nat.shiftLeft_eq, Nat.shiftLeft_eq, Nat.shiftLeft_eq,
          lor_mul_add 18 (0xF0 + c / 0x40000 - 0xF0)
            ((0x80 + c / 0x1000 % 0x40 - 0x80) * 2 ^ 12) (by omega)]
        have hre1 : (0xF0 + c / 0x40000 - 0xF0) * 2 ^ 18 +
            (0x80 + c / 0x1000 % 0x40 - 0x80) * 2 ^ 12 =
            ((0xF0 + c / 0x40000 - 0xF0) * 2 ^ 6 + (0x80 + c / 0x1000 % 0x40 - 0x80)) * 2 ^ 12 := by
          ring
        rw [hre1, lor_mul_add 12 _ ((0x80 + c / 0x40 % 0x40 - 0x80) * 2 ^ 6) (by omega)]
        have hre2 : ((0xF0 + c / 0x40000 - 0xF0) * 2 ^ 6 + (0x80 + c / 0x1000 % 0x40 - 0x80)) * 2 ^ 12 +
            (0x80 + c / 0x40 % 0x40 - 0x80) * 2 ^ 6 =
            (((0xF0 + c / 0x40000 - 0xF0) * 2 ^ 6 + (0x80 + c / 0x1000 % 0x40 - 0x80)) * 2 ^ 6 +
              (0x80 + c / 0x40 % 0x40 - 0x80)) * 2 ^ 6 := by
          ring
        rw [hre2, lor_mul_add 6 _ (0x80 + c % 0x40 - 0x80) (by omega)]
        omega

/-! ### Buffer algebra for the shifting operations -/

theorem setRange_def (buf src : List Nat) (i : Nat) :
    setRange buf i src = buf.take i ++ src ++ buf.drop (i + src.length) := rfl

theorem setRange_length (buf src : List Nat) (i : Nat) (h : i + src.length ≤ buf.length) :
    (setRange buf i src).length = buf.length := by
  simp [setRange]
  omega

theorem content_mk {N : Nat} (len : Nat) (buf : List Nat) :
    content (⟨len, buf⟩ : String N) = buf.take len := rfl

theorem content_length {N : Nat} (s : String N) (hbuf : s.buf.length = N)
    (hlen : s.len ≤ N) : (content s).length = s.len := by
  simp [content]
  omega

/-- Effect of `insert_str`'s two bulk copies on the backing buffer. -/
theorem insert_buf_spec (B T : List Nat) (i L N : Nat)
    (hB : B.length = N) (hiL : i ≤ L) (hfit : L + T.length ≤ N) :
    ((setRange (if i < L then setRange B (i + T.length) ((B.drop i).take (L - i)) else B) i T).take
        (L + T.length)) = (B.take L).take i ++ T ++ (B.take L).drop i ∧
    (setRange (if i < L then setRange B (i + T.length) ((B.drop i).take (L - i)) else B) i T).length
      = N := by
  by_cases hlt : i < L
  · rw [if_pos hlt]
    have hXlen : ((B.drop i).take (L - i)).length = L - i := by
      simp
      omega
    have hB1len : (setRange B (i + T.length) ((B.drop i).take (L - i))).length = N := by
      rw [setRange_length]
      · exact hB
      · omega
    have hB1 : setRange B (i + T.length) ((B.drop i).take (L - i)) =
        B.take (i + T.length) ++ (B.drop i).take (L - i) ++ B.drop (L + T.length) := by
      rw [setRange_def, hXlen]
      have h9 : i + T.length + (L - i) = L + T.length := by omega
      rw [h9]
    constructor
    · rw [setRange_def, hB1]
      have htk : (B.take (i + T.length) ++ (B.drop i).take (L - i) ++ B.drop (L + T.length)).take i
          = B.take i := by
        rw [List.append_assoc, List.take_append_eq_append_take]
        have h1 : (B.take (i + T.length)).take i = B.take i := by
          rw [List.take_take]
          congr 1
          omega
        have h2 : (B.take (i + T.length)).length = i + T.length := by
          simp
          omega
        rw [h1, h2]
        have h3 : i - (i + T.length) = 0 := by omega
        rw [h3]
        simp
      have hdp : (B.take (i + T.length) ++ (B.drop i).take (L - i) ++ B.drop (L + T.length)).drop
          (i + T.length) = (B.drop i).take (L - i) ++ B.drop (L + T.length) := by
        rw [List.append_assoc, List.drop_left' (by simp; omega)]
      rw [htk, hdp]
      have hassoc : B.take i ++ T ++ ((B.drop i).take (L - i) ++ B.drop (L + T.length)) =
          (B.take i ++ T ++ (B.drop i).take (L - i)) ++ B.drop (L + T.length) := by
        simp [List.append_assoc]
      rw [hassoc, List.take_left' (by simp; omega)]
      rw [List.take_take, List.drop_take]
      have hmin : min i L = i := by omega
      rw [hmin]
    · rw [setRange_length]
      · exact hB1len
      · rw [hB1len]
        omega
  · rw [if_neg hlt]
    have hiL' : i = L := by omega
    subst hiL'
    constructor
    · rw [setRange_def]
      have h1 : (B.take i ++ T ++ B.drop (i + T.length)).take (i + T.length)
          = B.take i ++ T := by
        rw [List.append_assoc, List.take_append_eq_append_take]
        have h2 : (B.take i).length = i := by
          simp
          omega
        rw [h2]
        have h3 : (B.take i).take (i + T.length) = B.take i := by
          rw [List.take_take]
          congr 1
          omega
        rw [h3, List.take_append_eq_append_take]
        have h5 : (T.take (i + T.length - i)) = T := by
          rw [List.take_of_length_le]
          omega
        rw [h5]
        have h4 : i + T.length - i - T.length = 0 := by omega
        rw [h4]
        simp
      rw [h1, List.take_take]
      have h6 : min i i = i := by omega
      rw [h6]
      have h7 : (B.take i).drop i = [] := by
        rw [List.drop_eq_nil_iff]
        simp
      rw [h7]
      simp
    · rw [setRange_length]
      · exact hB
      · omega

/-- Effect of `remove`'s closing bulk copy on the backing buffer. -/
theorem remove_buf_spec (B : List Nat) (i w L N : Nat)
    (hB : B.length = N) (hLN : L ≤ N) (hiw : i + w ≤ L) :
    ((if i + w < L then setRange B i ((B.drop (i + w)).take (L - (i + w))) else B).take (L - w))
      = (B.take L).take i ++ (B.take L).drop (i + w) ∧
    (if i + w < L then setRange B i ((B.drop (i + w)).take (L - (i + w))) else B).length = N := by
  have h5 : (B.take L).take i = B.take i := by
    rw [List.take_take]
    congr 1
    omega
  by_cases hlt : i + w < L
  · rw [if_pos hlt]
    have hYlen : ((B.drop (i + w)).take (L - (i + w))).length = L - (i + w) := by
      simp
      omega
    constructor
    · rw [setRange_def, hYlen, List.append_assoc, List.take_append_eq_append_take]
      have h1 : (B.take i).length = i := by
        simp
        omega
      have h2 : (B.take i).take (L - w) = B.take i := by
        rw [List.take_take]
        congr 1
        omega
      rw [h1, h2, List.take_append_eq_append_take, hYlen]
      have h3 : ((B.drop (i + w)).take (L - (i + w))).take (L - w - i) =
          (B.drop (i + w)).take (L - (i + w)) := by
        rw [List.take_of_length_le]
        rw [hYlen]
        omega
      have h4 : L - w - i - (L - (i + w)) = 0 := by omega
      rw [h3, h4]
      simp only [List.take_zero, List.append_nil]
      rw [h5, List.drop_take]
    · rw [setRange_length]
      · exact hB
      · rw [hYlen]
        omega
  · rw [if_neg hlt]
    have hiw' : i + w = L := by omega
    refine ⟨?_, hB⟩
    have h2 : (B.take L).drop (i + w) = [] := by
      rw [List.drop_eq_nil_iff]
      simp
      omega
    rw [h2, h5, List.append_nil]
    congr 1
    omega

/-! ### Behaviour of the operations -/

/-- A successful `insert_str`: splices the addition at the boundary. -/
theorem insert_str_ok {N : Nat} (s : String N) (i : Nat) (t : List Nat)
    (hbuf : s.buf.length = N) (hlen : s.len ≤ N)
    (hb : strIsCharBoundary (content s) i = true)
    (hfit : s.len + (utf8Encode t).length ≤ N) :
    ∃ s1, s.insert_str i t = some (s1, none) ∧
      s1.len = s.len + (utf8Encode t).length ∧
      s1.buf.length = N ∧
      content s1 = (content s).take i ++ utf8Encode t ++ (content s).drop i := by
  have hi : i ≤ s.len := by
    have h := strIsCharBoundary_le _ _ hb
    rw [content_length s hbuf hlen] at h
    exact h
  obtain ⟨hbufspec, hlenspec⟩ :=
    insert_buf_spec s.buf (utf8Encode t) i s.len N hbuf hi hfit
  refine ⟨⟨s.len + (utf8Encode t).length,
    setRange (if i < s.len then setRange s.buf (i + (utf8Encode t).length)
        ((s.buf.drop i).take (s.len - i)) else s.buf) i (utf8Encode t)⟩, ?_, rfl, hlenspec, ?_⟩
  · unfold String.insert_str
    rw [if_pos hb, if_neg (by omega)]
  · rw [content_mk, hbufspec]
    rfl

/-- An overflowing `insert_str` fails atomically with the documented
error. -/
theorem insert_str_err {N : Nat} (s : String N) (i : Nat) (t : List Nat)
    (hb : strIsCharBoundary (content s) i = true)
    (hover : N < s.len + (utf8Encode t).length) :
    s.insert_str i t = some (s, some ⟨N - s.len, (utf8Encode t).length⟩) := by
  unfold String.insert_str
  rw [if_pos hb, if_pos (by omega)]

/-- `insert_str` off a character boundary panics. -/
theorem insert_str_panic {N : Nat} (s : String N) (i : Nat) (t : List Nat)
    (hb : strIsCharBoundary (content s) i = false) :
    s.insert_str i t = none := by
  unfold String.insert_str
  rw [hb]
  rfl

/-- A `remove` at the start of an embedded character returns it and closes
the gap. -/
theorem remove_ok {N : Nat} (s : String N) (cs1 : List Nat) (c : Nat) (cs2 : List Nat)
    (hbuf : s.buf.length = N) (hlen : s.len ≤ N)
    (hsc : Scalars (cs1 ++ c :: cs2))
    (hcontent : content s = utf8Encode (cs1 ++ c :: cs2)) :
    ∃ s1, s.remove (utf8Encode cs1).length = some (s1, c) ∧
      s1.len = s.len - (encodeChar c).length ∧
      s1.buf.length = N ∧
      content s1 = utf8Encode (cs1 ++ cs2) := by
  have hc : IsScalar c := hsc c (by simp)
  have hsplit : utf8Encode (cs1 ++ c :: cs2) =
      utf8Encode cs1 ++ (encodeChar c ++ utf8Encode cs2) := by
    rw [utf8Encode_append]
    rfl
  have hL : s.len = (utf8Encode cs1).length + (encodeChar c).length + (utf8Encode cs2).length := by
    have h := content_length s hbuf hlen
    rw [hcontent, hsplit] at h
    simp at h
    omega
  have hwpos := length_encodeChar_pos c
  have hilt : (utf8Encode cs1).length < s.len := by omega
  have hbound : strIsCharBoundary (content s) (utf8Encode cs1).length = true := by
    rw [hcontent]
    exact (boundary_encode _ _ hsc).mpr ⟨cs1, c :: cs2, rfl, rfl⟩
  have hdec : decode_utf8 (content s) (utf8Encode cs1).length =
      some (c, (encodeChar c).length) := by
    refine decode_utf8_at (content s) (utf8Encode cs1) (utf8Encode cs2) c hc ?_ hbound
    rw [hcontent, hsplit]
  obtain ⟨hbufspec, hlenspec⟩ := remove_buf_spec s.buf (utf8Encode cs1).length
    (encodeChar c).length s.len N hbuf hlen (by omega)
  refine ⟨⟨s.len - (encodeChar c).length,
    if (utf8Encode cs1).length + (encodeChar c).length < s.len then
      setRange s.buf (utf8Encode cs1).length
        ((s.buf.drop ((utf8Encode cs1).length + (encodeChar c).length)).take
          (s.len - ((utf8Encode cs1).length + (encodeChar c).length)))
    else s.buf⟩, ?_, rfl, hlenspec, ?_⟩
  · unfold String.remove
    rw [if_pos hilt, if_pos hbound, hdec]
  · rw [content_mk, hbufspec]
    have ht1 : (s.buf.take s.len) = content s := rfl
    rw [ht1, hcontent, hsplit, utf8Encode_append]
    rw [List.take_left' rfl]
    have hd : (utf8Encode cs1 ++ (encodeChar c ++ utf8Encode cs2)).drop
        ((utf8Encode cs1).length + (encodeChar c).length) = utf8Encode cs2 := by
      rw [← List.append_assoc, List.drop_left' (by simp)]
    rw [hd]

/-- `remove` past the end or off a character boundary panics. -/
theorem remove_panic {N : Nat} (s : String N) (i : Nat)
    (h : s.len ≤ i ∨ strIsCharBoundary (content s) i = false) :
    s.remove i = none := by
  unfold String.remove
  rcases h with h | h
  · rw [if_neg (by omega)]
  · by_cases hlt : i < s.len
    · rw [if_pos hlt, h]
      rfl
    · rw [if_neg hlt]

/-! ### The backward scan and `pop` -/

/-- The backward scan stops exactly at the nearest position `j ≤ i` whose
byte is not masked as a continuation. -/
theorem prevScan_stop (bs : List Nat) : ∀ i j, j ≤ i →
    (j = 0 ∨ ¬(bs.getD j 0 &&& 0xC0 = 0x80)) →
    (∀ k, j < k → k ≤ i → bs.getD k 0 &&& 0xC0 = 0x80) →
    prevScan bs i = j := by
  intro i
  induction i with
  | zero =>
    intro j hj _ _
    interval_cases j
    rfl
  | succ i ih =>
    intro j hj hstop hcont
    by_cases hji : j = i + 1
    · subst hji
      rcases hstop with h0 | hnc
      · exact absurd h0 (by omega)
      · unfold prevScan
        rw [if_neg hnc]
    · have hj' : j ≤ i := by omega
      have hcnt : bs.getD (i + 1) 0 &&& 0xC0 = 0x80 := hcont (i + 1) (by omega) (le_refl _)
      unfold prevScan
      rw [if_pos hcnt]
      exact ih j hj' hstop (fun k hk1 hk2 => hcont k hk1 (by omega))

/-- The leading byte of an encoding is below `0x100`. -/
theorem encodeChar_head_lt256 (c : Nat) (hc : c < 0x110000) :
    (encodeChar c).getD 0 0 < 256 := by
  simp only [encodeChar]
  split_ifs <;> simp only [List.getD_cons_zero] <;> omega

/-- The leading byte of an encoding is not masked as a continuation. -/
theorem encodeChar_head_mask (c : Nat) (hc : c < 0x110000) :
    ¬((encodeChar c).getD 0 0 &&& 0xC0 = 0x80) := by
  have h256 := encodeChar_head_lt256 c hc
  have hclass : (encodeChar c).getD 0 0 < 0x80 ∨ 0xC0 ≤ (encodeChar c).getD 0 0 := by
    rcases hE : encodeChar c with _ | ⟨b, t⟩
    · exact absurd hE (encodeChar_ne_nil c)
    · simp only [List.getD_cons_zero]
      exact encodeChar_head_class c b t hE
  intro hmask
  have := (mask_cont_iff _ h256).mp hmask
  omega

/-- A continuation byte of an encoding is masked as a continuation. -/
theorem encodeChar_tail_mask (c m : Nat) (h1 : 1 ≤ m) (h2 : m < (encodeChar c).length) :
    (encodeChar c).getD m 0 &&& 0xC0 = 0x80 := by
  obtain ⟨ha, hb⟩ := encodeChar_getD_cont c m h1 h2
  exact (mask_cont_iff _ (by omega)).mpr ⟨ha, hb⟩

/-- The scan from the end of `A ++ encodeChar c` lands on the boundary
`A.length`. -/
theorem prevScan_last (A : List Nat) (c : Nat) (hc : IsScalar c) :
    prevScan (A ++ encodeChar c) (A.length + (encodeChar c).length - 1) = A.length := by
  obtain ⟨hlt, -⟩ := hc
  have hwpos := length_encodeChar_pos c
  refine prevScan_stop (A ++ encodeChar c) (A.length + (encodeChar c).length - 1) A.length
    (by omega) ?_ ?_
  · by_cases h0 : A.length = 0
    · exact Or.inl h0
    · refine Or.inr ?_
      have hidx : (A ++ encodeChar c).getD A.length 0 = (encodeChar c).getD 0 0 := by
        rw [List.getD_append_right A (encodeChar c) 0 A.length (le_refl _)]
        simp
      rw [hidx]
      exact encodeChar_head_mask c hlt
  · intro k hk1 hk2
    have hidx : (A ++ encodeChar c).getD k 0 = (encodeChar c).getD (k - A.length) 0 := by
      rw [List.getD_append_right A (encodeChar c) 0 k (by omega)]
    rw [hidx]
    exact encodeChar_tail_mask c (k - A.length) (by omega) (by omega)

/-- A successful `pop` on a non-empty well-formed string removes and
returns the last character. -/
theorem pop_ok {N : Nat} (s : String N) (init : List Nat) (c : Nat)
    (hbuf : s.buf.length = N) (hlen : s.len ≤ N)
    (hsc : Scalars (init ++ [c]))
    (hcontent : content s = utf8Encode (init ++ [c])) :
    ∃ s1, s.pop = some (s1, some c) ∧
      s1.len = s.len - (encodeChar c).length ∧
      s1.buf.length = N ∧
      content s1 = utf8Encode init := by
  have hc : IsScalar c := hsc c (by simp)
  have hwpos := length_encodeChar_pos c
  have hsplit : utf8Encode (init ++ [c]) = utf8Encode init ++ encodeChar c := by
    rw [utf8Encode_append]
    simp [utf8Encode]
  have hL : s.len = (utf8Encode init).length + (encodeChar c).length := by
    have h := content_length s hbuf hlen
    rw [hcontent, hsplit] at h
    simp at h
    omega
  have hne : ¬(s.len = 0) := by omega
  have hscan : prevScan (content s) (s.len - 1) = (utf8Encode init).length := by
    rw [hcontent, hsplit, hL]
    exact prevScan_last (utf8Encode init) c hc
  obtain ⟨s1, hrem, hlen1, hbuf1, hcontent1⟩ :=
    remove_ok s init c [] hbuf hlen hsc hcontent
  refine ⟨s1, ?_, hlen1, hbuf1, by rw [hcontent1]; simp⟩
  unfold String.pop String.prev_char_boundary
  rw [if_neg hne, if_pos (le_refl _), hscan]
  dsimp only
  rw [hrem]

/-! ### Push wrappers, ASCII maps, and the character-iterator loop -/

theorem validUtf8_nil : validUtf8 ([] : List Nat) = true := rfl

theorem content_boundary_len {N : Nat} (s : String N) (hbuf : s.buf.length = N)
    (hlen : s.len ≤ N) : strIsCharBoundary (content s) s.len = true := by
  have h := content_length s hbuf hlen
  conv_lhs => rw [← h]
  exact strIsCharBoundary_length (content s)

/-- A fitting `push` appends the character's encoding. -/
theorem push_ok {N : Nat} (s : String N) (c : Nat)
    (hbuf : s.buf.length = N) (hlen : s.len ≤ N)
    (hfit : s.len + (encodeChar c).length ≤ N) :
    ∃ s1, s.push c = some (s1, none) ∧
      s1.len = s.len + (encodeChar c).length ∧
      s1.buf.length = N ∧
      content s1 = content s ++ encodeChar c := by
  have henc : utf8Encode [c] = encodeChar c := by simp [utf8Encode]
  obtain ⟨s1, heq, h1, h2, h3⟩ := insert_str_ok s s.len [c] hbuf hlen
    (content_boundary_len s hbuf hlen) (by rw [henc]; omega)
  refine ⟨s1, heq, by rw [← henc]; exact h1, h2, ?_⟩
  rw [h3, henc]
  have hcl := content_length s hbuf hlen
  rw [List.take_of_length_le (by omega), List.drop_eq_nil_of_le (by omega)]
  simp

/-- An overflowing `push` fails atomically with the documented error. -/
theorem push_err {N : Nat} (s : String N) (c : Nat)
    (hbuf : s.buf.length = N) (hlen : s.len ≤ N)
    (hover : N < s.len + (encodeChar c).length) :
    s.push c = some (s, some ⟨N - s.len, (encodeChar c).length⟩) := by
  have henc : utf8Encode [c] = encodeChar c := by simp [utf8Encode]
  have h := insert_str_err s s.len [c] (content_boundary_len s hbuf hlen)
    (by rw [henc]; omega)
  rw [henc] at h
  exact h

/-- Byte maps that fix non-ASCII bytes and keep ASCII in ASCII commute
with UTF-8 encoding. -/
theorem map_ascii_scalars (f : Nat → Nat)
    (hhi : ∀ b, 0x80 ≤ b → f b = b) (hlo : ∀ c, c < 0x80 → f c < 0x80) :
    ∀ cs, Scalars cs → (utf8Encode cs).map f = utf8Encode (cs.map f) ∧ Scalars (cs.map f) := by
  intro cs
  induction cs with
  | nil =>
    intro _
    refine ⟨by simp [utf8Encode], ?_⟩
    intro x hx
    exact absurd hx (by simp)
  | cons c cs' ih =>
    intro hsc
    have hc : IsScalar c := hsc c (by simp)
    have hsc' : Scalars cs' := fun x hx => hsc x (by simp [hx])
    obtain ⟨ih1, ih2⟩ := ih hsc'
    have hform : utf8Encode (c :: cs') = encodeChar c ++ utf8Encode cs' := rfl
    have hform2 : utf8Encode (f c :: cs'.map f) = encodeChar (f c) ++ utf8Encode (cs'.map f) := rfl
    constructor
    · rw [hform, List.map_append, ih1]
      show _ = utf8Encode (f c :: cs'.map f)
      rw [hform2]
      congr 1
      rcases Nat.lt_or_ge c 0x80 with h | h
      · rw [encodeChar_one c h, encodeChar_one (f c) (hlo c h)]
        simp
      · have hfc : f c = c := by
          have hbytes : ∀ b ∈ encodeChar c, 0x80 ≤ b → f b = b := fun b _ => hhi b
          exact hhi c h
        rw [hfc]
        have : ∀ b ∈ encodeChar c, f b = b := by
          intro b hb
          refine hhi b ?_
          rcases Nat.lt_or_ge c 0x800 with h2 | h2
          · rw [encodeChar_two c h h2] at hb
            simp at hb
            rcases hb with hb | hb <;> omega
          · rcases Nat.lt_or_ge c 0x10000 with h3 | h3
            · rw [encodeChar_three c h2 h3] at hb
              simp at hb
              rcases hb with hb | hb | hb <;> omega
            · rw [encodeChar_four c h3] at hb
              simp at hb
              rcases hb with hb | hb | hb | hb <;> omega
        calc (encodeChar c).map f = (encodeChar c).map id :=
              List.map_congr_left (fun a ha => this a ha)
          _ = encodeChar c := List.map_id _
    · intro x hx
      simp only [List.map_cons] at hx
      rcases List.mem_cons.mp hx with hx' | hx'
      · subst hx'
        rcases Nat.lt_or_ge c 0x80 with h | h
        · have := hlo c h
          exact ⟨by omega, by omega⟩
        · rw [hhi c h]
          exact hc
      · exact ih2 x hx' 

/-- The iterator loop consumes a fitting block of characters in order. -/
theorem fromIterGo_fits {N : Nat} : ∀ (g : List Nat) (s : String N) (r : List Nat),
    s.buf.length = N → s.len ≤ N → Scalars g →
    s.len + (utf8Encode g).length ≤ N →
    ∃ s1, fromIterGo s (g ++ r) = fromIterGo s1 r ∧ fromIterGo s g = s1 ∧
      s1.len = s.len + (utf8Encode g).length ∧ s1.buf.length = N ∧
      content s1 = content s ++ utf8Encode g := by
  intro g
  induction g with
  | nil =>
    intro s r hbuf hlen _ _
    exact ⟨s, rfl, rfl, by simp [utf8Encode], hbuf, by simp [utf8Encode]⟩
  | cons c g' ih =>
    intro s r hbuf hlen hsc hfit
    have hc : IsScalar c := hsc c (by simp)
    have hsc' : Scalars g' := fun x hx => hsc x (by simp [hx])
    have hform : utf8Encode (c :: g') = encodeChar c ++ utf8Encode g' := rfl
    have hfitlen : s.len + (encodeChar c).length ≤ N := by
      rw [hform] at hfit
      simp at hfit
      omega
    obtain ⟨s1, hpush, hlen1, hbuf1, hcontent1⟩ := push_ok s c hbuf hlen hfitlen
    have hfit' : s1.len + (utf8Encode g').length ≤ N := by
      rw [hform] at hfit
      simp at hfit
      omega
    obtain ⟨s2, hgo, hgo2, hlen2, hbuf2, hcontent2⟩ := ih s1 r hbuf1 (by omega) hsc' hfit'
    refine ⟨s2, ?_, ?_, ?_, hbuf2, ?_⟩
    · show fromIterGo s ((c :: g') ++ r) = fromIterGo s2 r
      rw [List.cons_append]
      show (match s.push c with
        | some (s', none) => fromIterGo s' (g' ++ r)
        | some (s', some _) => s'
        | none => s) = fromIterGo s2 r
      rw [hpush]
      exact hgo
    · show (match s.push c with
        | some (s', none) => fromIterGo s' g'
        | some (s', some _) => s'
        | none => s) = s2
      rw [hpush]
      exact hgo2
    · rw [hlen2, hlen1, hform]
      simp
      omega
    · rw [hcontent2, hcontent1, hform]
      rw [List.append_assoc]

/-- The iterator loop stops silently on the first character that does not
fit, discarding the rest. -/
theorem fromIterGo_stop {N : Nat} (s : String N) (b : Nat) (r : List Nat)
    (hbuf : s.buf.length = N) (hlen : s.len ≤ N)
    (hover : N < s.len + (encodeChar b).length) :
    fromIterGo s (b :: r) = s := by
  have hpush := push_err s b hbuf hlen hover
  show (match s.push b with
    | some (s', none) => fromIterGo s' r
    | some (s', some _) => s'
    | none => s) = s
  rw [hpush]

/-! ### The claims -/

/-- C5: `remove` at an index that is not a character boundary of the
content — including every index at or past the content length — is a
fatal precondition violation: it panics (modelled `none`) instead of
returning a character or mutating the buffer. In particular a capacity-4
buffer holding the single 3-byte character U+5149 panics on `remove 2`. -/
theorem C5_remove_nonboundary :
    (∀ (N : Nat) (s : String N) (i : Nat), Wf N s →
      (strIsCharBoundary (content s) i = false ∨ s.len ≤ i) →
      s.remove i = none) ∧
    (⟨3, [0xE5, 0x85, 0x89, 0x00]⟩ : String 4).remove 2 = none := by
  constructor
  · intro N s i _ h
    exact remove_panic s i h.symm
  · decide

/-- C6: `fromText` succeeds exactly on texts of byte length at most `N`,
copying the text verbatim into the buffer, and otherwise fails with
`LengthError { remaining := N, count := byteLength s }`. -/
theorem C6_fromText (N : Nat) (s : List Nat) (hs : Scalars s) :
    ((utf8Encode s).length ≤ N →
      ∃ b, String.from_str N s = .ok b ∧ content b = utf8Encode s ∧
        b.len = (utf8Encode s).length) ∧
    (N < (utf8Encode s).length →
      String.from_str N s = .error ⟨N, (utf8Encode s).length⟩) := by
  constructor
  · intro hle
    refine ⟨⟨(utf8Encode s).length,
      utf8Encode s ++ List.replicate (N - (utf8Encode s).length) 0⟩, ?_, ?_, rfl⟩
    · unfold String.from_str
      rw [if_neg (by omega)]
    · rw [content_mk, List.take_left' rfl]
  · intro hgt
    unfold String.from_str
    rw [if_pos (by omega)]

/-- C7: the claimed success on every valid array of size `M ≤ N` is
contradicted by the code. The array `[0x41, 0x42, 0x43]` is valid UTF-8
of size `M = 3 ≤ N = 4`, yet `from_utf8` panics (modelled `none`): on
valid data with `M < N`, `from_utf8_unchecked` reaches its `N ≠ M` branch,
whose `buf.copy_from_slice(&data)` copies between slices of the unequal
lengths `N` and `M` and therefore panics. Only `M = N` succeeds, then
indeed with `len = M` and verbatim content, as the last conjunct shows. -/
theorem C7_fromUtf8_panic_below_capacity :
    validUtf8 [0x41, 0x42, 0x43] = true ∧
    String.from_utf8 4 [0x41, 0x42, 0x43] = none ∧
    String.from_utf8 3 [0x41, 0x42, 0x43]
      = some (.ok ⟨3, [0x41, 0x42, 0x43]⟩) :=
  ⟨rfl, rfl, rfl⟩

/-- C2: each insertion operation (`insert_str`, `insert`, `push_str`,
`push`) at a valid character boundary fails with
`LengthError { remaining := N - len, count := byteLength addition }` and
returns the buffer literally unchanged exactly when the addition does not
fit the remaining capacity, and succeeds otherwise; `push`/`push_str`
are definitionally insertion at `index = len`, and a buffer filled to
capacity with ASCII rejects the next one-byte push with
`LengthError { remaining := 0, count := 1 }`. -/
theorem C2_capacity_atomic (N : Nat) :
    (∀ (s : String N) (i : Nat) (ts : List Nat), Wf N s →
      strIsCharBoundary (content s) i = true →
      (N < s.len + (utf8Encode ts).length →
        s.insert_str i ts = some (s, some ⟨N - s.len, (utf8Encode ts).length⟩)) ∧
      (s.len + (utf8Encode ts).length ≤ N →
        ∃ s1, s.insert_str i ts = some (s1, none))) ∧
    (∀ (s : String N) (i c : Nat), Wf N s →
      strIsCharBoundary (content s) i = true →
      (N < s.len + (encodeChar c).length →
        s.insert i c = some (s, some ⟨N - s.len, (encodeChar c).length⟩)) ∧
      (s.len + (encodeChar c).length ≤ N →
        ∃ s1, s.insert i c = some (s1, none))) ∧
    (∀ (s : String N) (ts : List Nat), Wf N s →
      (N < s.len + (utf8Encode ts).length →
        s.push_str ts = some (s, some ⟨N - s.len, (utf8Encode ts).length⟩)) ∧
      (s.len + (utf8Encode ts).length ≤ N →
        ∃ s1, s.push_str ts = some (s1, none))) ∧
    (∀ (s : String N) (c : Nat), Wf N s →
      (N < s.len + (encodeChar c).length →
        s.push c = some (s, some ⟨N - s.len, (encodeChar c).length⟩)) ∧
      (s.len + (encodeChar c).length ≤ N →
        ∃ s1, s.push c = some (s1, none))) ∧
    (∀ (s : String N) (c : Nat) (ts : List Nat),
      s.push c = s.insert s.len c ∧ s.push_str ts = s.insert_str s.len ts) ∧
    (∀ (s : String N) (c : Nat), Wf N s → c < 0x80 → s.len = N →
      s.push c = some (s, some ⟨0, 1⟩)) := by
  have henc : ∀ c : Nat, utf8Encode [c] = encodeChar c := by
    intro c
    simp [utf8Encode]
  refine ⟨?_, ?_, ?_, ?_, ?_, ?_⟩
  · intro s i ts hwf hb
    obtain ⟨hbuf, hlen, -⟩ := hwf
    constructor
    · intro hover
      exact insert_str_err s i ts hb hover
    · intro hfit
      obtain ⟨s1, heq, -⟩ := insert_str_ok s i ts hbuf hlen hb hfit
      exact ⟨s1, heq⟩
  · intro s i c hwf hb
    obtain ⟨hbuf, hlen, -⟩ := hwf
    constructor
    · intro hover
      have h := insert_str_err s i [c] hb (by rw [henc c]; omega)
      rw [henc c] at h
      exact h
    · intro hfit
      obtain ⟨s1, heq, -⟩ := insert_str_ok s i [c] hbuf hlen hb (by rw [henc c]; omega)
      exact ⟨s1, heq⟩
  · intro s ts hwf
    obtain ⟨hbuf, hlen, -⟩ := hwf
    have hb := content_boundary_len s hbuf hlen
    constructor
    · intro hover
      exact insert_str_err s s.len ts hb hover
    · intro hfit
      obtain ⟨s1, heq, -⟩ := insert_str_ok s s.len ts hbuf hlen hb hfit
      exact ⟨s1, heq⟩
  · intro s c hwf
    obtain ⟨hbuf, hlen, -⟩ := hwf
    constructor
    · intro hover
      exact push_err s c hbuf hlen hover
    · intro hfit
      obtain ⟨s1, heq, -⟩ := push_ok s c hbuf hlen hfit
      exact ⟨s1, heq⟩
  · intro s c ts
    exact ⟨rfl, rfl⟩
  · intro s c hwf hlo hfull
    obtain ⟨hbuf, hlen, -⟩ := hwf
    have hw : (encodeChar c).length = 1 := by
      rw [encodeChar_one c hlo]
      rfl
    have h := push_err s c hbuf hlen (by omega)
    rw [hw, hfull] at h
    simpa using h

/-- C8: on a valid string, `decodeAt` at a character boundary returns the
scalar value encoded there together with its byte width, the width also
being what `utf8_char_len` computes from the leading byte; in particular
`decodeAt` of U+1F54B at offset 0 yields that scalar with width 4. -/
theorem C8_decodeAt :
    (∀ (cs1 : List Nat) (c : Nat) (cs2 : List Nat), Scalars (cs1 ++ c :: cs2) →
      decode_utf8 (utf8Encode (cs1 ++ c :: cs2)) (utf8Encode cs1).length
        = some (c, (encodeChar c).length) ∧
      utf8_char_len ((utf8Encode (cs1 ++ c :: cs2)).getD (utf8Encode cs1).length 0)
        = (encodeChar c).length) ∧
    decode_utf8 (encodeChar 0x1F54B) 0 = some (0x1F54B, 4) := by
  constructor
  · intro cs1 c cs2 hsc
    have hc : IsScalar c := hsc c (by simp)
    have hsplit : utf8Encode (cs1 ++ c :: cs2) =
        utf8Encode cs1 ++ (encodeChar c ++ utf8Encode cs2) := by
      rw [utf8Encode_append]
      rfl
    have hbound : strIsCharBoundary (utf8Encode (cs1 ++ c :: cs2)) (utf8Encode cs1).length
        = true :=
      (boundary_encode _ _ hsc).mpr ⟨cs1, c :: cs2, rfl, rfl⟩
    refine ⟨decode_utf8_at _ (utf8Encode cs1) (utf8Encode cs2) c hc hsplit hbound, ?_⟩
    have hwpos := length_encodeChar_pos c
    have hbyte : (utf8Encode (cs1 ++ c :: cs2)).getD (utf8Encode cs1).length 0
        = (encodeChar c).getD 0 0 := by
      rw [hsplit, List.getD_append_right _ _ 0 _ (le_refl _), Nat.sub_self,
        List.getD_append _ _ 0 0 (by omega)]
    rw [hbyte]
    exact charlen_encode_head c hc
  · decide

/-- C9: construction from a character sequence appends in order and
stops silently at the first character whose encoding overflows the
remaining capacity, dropping it and everything after it; with no
overflow the whole sequence is appended. -/
theorem C9_fromChars (N : Nat) :
    (∀ (g : List Nat) (b : Nat) (r : List Nat), Scalars (g ++ b :: r) →
      (utf8Encode g).length ≤ N → N < (utf8Encode g).length + (encodeChar b).length →
      String.from_iter N (g ++ b :: r) = String.from_iter N g ∧
      content (String.from_iter N (g ++ b :: r)) = utf8Encode g) ∧
    (∀ cs : List Nat, Scalars cs → (utf8Encode cs).length ≤ N →
      content (String.from_iter N cs) = utf8Encode cs) := by
  have hnew_buf : (String.new N).buf.length = N := by simp [String.new]
  have hnew_len : (String.new N).len = 0 := rfl
  have hnew_content : content (String.new N) = [] := by simp [String.new, content]
  constructor
  · intro g b r hsc hfit hover
    have hscg : Scalars g := fun x hx => hsc x (by simp [hx])
    obtain ⟨s1, hgo, hgo2, hlen1, hbuf1, hcontent1⟩ :=
      fromIterGo_fits g (String.new N) (b :: r) hnew_buf (by omega) hscg
        (by rw [hnew_len]; omega)
    have hstop : fromIterGo s1 (b :: r) = s1 :=
      fromIterGo_stop s1 b r hbuf1 (by omega) (by rw [hlen1, hnew_len]; omega)
    have h1 : String.from_iter N (g ++ b :: r) = s1 := by
      unfold String.from_iter
      rw [hgo, hstop]
    have h2 : String.from_iter N g = s1 := hgo2
    refine ⟨by rw [h1, h2], ?_⟩
    rw [h1, hcontent1, hnew_content]
    simp
  · intro cs hsc hfit
    obtain ⟨s1, -, hgo2, -, -, hcontent1⟩ :=
      fromIterGo_fits cs (String.new N) [] hnew_buf (by omega) hsc
        (by rw [hnew_len]; omega)
    show content (fromIterGo (String.new N) cs) = utf8Encode cs
    rw [hgo2, hcontent1, hnew_content]
    simp

/-- C4: a fitting `insert` at a character boundary succeeds, and
immediately removing at the same index returns the inserted character and
restores the buffer's content and length. -/
theorem C4_insert_remove (N : Nat) (s : String N) (i c : Nat)
    (hwf : Wf N s) (hc : IsScalar c)
    (hb : strIsCharBoundary (content s) i = true)
    (hfit : s.len + (encodeChar c).length ≤ N) :
    ∃ s1 s2, s.insert i c = some (s1, none) ∧ s1.remove i = some (s2, c) ∧
      content s2 = content s ∧ s2.len = s.len := by
  obtain ⟨hbuf, hlen, hvalid⟩ := hwf
  obtain ⟨cs, hsc, hcontent⟩ := validUtf8_elim _ hvalid
  have hb' : strIsCharBoundary (utf8Encode cs) i = true := by
    rw [← hcontent]
    exact hb
  obtain ⟨cs1, cs2, hdecomp, hidx⟩ := (boundary_encode cs i hsc).mp hb'
  subst hdecomp
  subst hidx
  have henc : utf8Encode [c] = encodeChar c := by simp [utf8Encode]
  have hfit' : s.len + (utf8Encode [c]).length ≤ N := by rw [henc]; exact hfit
  obtain ⟨s1, hins, hlen1, hbuf1, hcontent1⟩ := insert_str_ok s (utf8Encode cs1).length [c]
    hbuf hlen hb hfit' 
  have hsc1 : Scalars cs1 := fun x hx => hsc x (by simp [hx])
  have hsc2 : Scalars cs2 := fun x hx => hsc x (by simp [hx])
  have hsc' : Scalars (cs1 ++ c :: cs2) := by
    intro x hx
    rcases List.mem_append.mp hx with hx | hx
    · exact hsc1 x hx
    · rcases List.mem_cons.mp hx with hx | hx
      · exact hx ▸ hc
      · exact hsc2 x hx
  have hcontent1' : content s1 = utf8Encode (cs1 ++ c :: cs2) := by
    have h9 : utf8Encode (cs1 ++ c :: cs2) = utf8Encode cs1 ++ (encodeChar c ++ utf8Encode cs2) := by
      rw [utf8Encode_append]
      rfl
    rw [hcontent1, henc, hcontent, utf8Encode_append, List.take_left' rfl,
      List.drop_left' rfl, h9, List.append_assoc]
  obtain ⟨s2, hrem, hlen2, hbuf2, hcontent2⟩ :=
    remove_ok s1 cs1 c cs2 hbuf1 (by omega) hsc' hcontent1'
  refine ⟨s1, s2, hins, hrem, ?_, ?_⟩
  · rw [hcontent2, hcontent, utf8Encode_append]
  · rw [hlen2, hlen1, henc]
    omega

/-- C10: `pop` is total on well-formed buffers: it yields no character
exactly on the empty buffer, and otherwise the backward continuation scan
lands on the last character's boundary, so the internal `remove` succeeds
and `pop` returns the last character, removing exactly its bytes. -/
theorem C10_pop_total (N : Nat) (s : String N) (hwf : Wf N s) :
    (s.len = 0 → s.pop = some (s, none)) ∧
    (s.len ≠ 0 → ∃ (init : List Nat) (c : Nat) (s1 : String N),
      content s = utf8Encode init ++ encodeChar c ∧
      s.pop = some (s1, some c) ∧
      content s1 = utf8Encode init ∧
      s1.len = s.len - (encodeChar c).length) := by
  obtain ⟨hbuf, hlen, hvalid⟩ := hwf
  constructor
  · intro h0
    unfold String.pop
    rw [if_pos h0]
  · intro hne
    obtain ⟨cs, hsc, hcontent⟩ := validUtf8_elim _ hvalid
    have hcs_ne : cs ≠ [] := by
      intro h
      subst h
      have := content_length s hbuf hlen
      rw [hcontent] at this
      simp [utf8Encode] at this
      omega
    obtain ⟨init, c, hcs⟩ := List.eq_nil_or_concat cs |>.resolve_left hcs_ne
    rw [List.concat_eq_append] at hcs
    subst hcs
    have hsplit : utf8Encode (init ++ [c]) = utf8Encode init ++ encodeChar c := by
      rw [utf8Encode_append]
      simp [utf8Encode]
    obtain ⟨s1, hpop, hlen1, hbuf1, hcontent1⟩ := pop_ok s init c hbuf hlen hsc hcontent
    exact ⟨init, c, s1, by rw [hcontent, hsplit], hpop, hcontent1, hlen1⟩

/-- Extending a pop run by one further pop appends its character. -/
theorem popN_snoc {N : Nat} : ∀ (k : Nat) (s s2 : String N) (l : List Nat) (s3 : String N) (c : Nat),
    popN s k = some (s2, l) → s2.pop = some (s3, some c) →
    popN s (k + 1) = some (s3, l ++ [c]) := by
  intro k
  induction k with
  | zero =>
    intro s s2 l s3 c h1 h2
    simp only [popN, Option.some.injEq, Prod.mk.injEq] at h1
    obtain ⟨h1a, h1b⟩ := h1
    subst h1a
    subst h1b
    simp only [popN, h2]
    rfl
  | succ k ih =>
    intro s s2 l s3 c h1 h2
    simp only [popN] at h1
    rcases hp : s.pop with _ | ⟨sa, ca⟩
    · rw [hp] at h1
      exact Option.noConfusion h1
    rcases ca with _ | ca
    · rw [hp] at h1
      exact Option.noConfusion h1
    rw [hp] at h1
    dsimp only at h1
    rcases hrec : popN sa k with _ | ⟨s2w, lw⟩
    · rw [hrec] at h1
      exact Option.noConfusion h1
    rw [hrec] at h1
    dsimp only at h1
    rw [Option.some.injEq, Prod.mk.injEq] at h1
    obtain ⟨h1a, h1b⟩ := h1
    have h9 := ih sa s2w lw s3 c hrec (by rw [h1a]; exact h2)
    have hunfold : popN s (k + 1 + 1) = (match s.pop with
      | some (s1, some cx) =>
        match popN s1 (k + 1) with
        | some (s2x, lx) => some (s2x, cx :: lx)
        | none => none
      | _ => none) := rfl
    rw [hunfold, hp]
    dsimp only
    rw [h9]
    dsimp only
    rw [← h1b]
    rfl

/-- The push-then-pop round trip, with the intermediate content made
explicit. -/
theorem push_pop_aux {N : Nat} : ∀ (cs : List Nat) (s : String N) (ds : List Nat),
    s.buf.length = N → s.len ≤ N → Scalars ds → Scalars cs →
    content s = utf8Encode ds →
    s.len + (utf8Encode cs).length ≤ N →
    ∃ s1 s2, pushAll s cs = some s1 ∧ popN s1 cs.length = some (s2, cs.reverse) ∧
      content s2 = content s ∧ s2.len = s.len ∧ s2.buf.length = N := by
  intro cs
  induction cs with
  | nil =>
    intro s ds hbuf hlen _ _ _ _
    exact ⟨s, s, rfl, rfl, rfl, rfl, hbuf⟩
  | cons c cs' ih =>
    intro s ds hbuf hlen hscd hscc hcontent hfit
    have hc : IsScalar c := hscc c (by simp)
    have hscc' : Scalars cs' := fun x hx => hscc x (by simp [hx])
    have hflen : (utf8Encode (c :: cs')).length =
        (encodeChar c).length + (utf8Encode cs').length := by
      show (encodeChar c ++ utf8Encode cs').length = _
      simp
    obtain ⟨s1, hpush, hlen1, hbuf1, hcontent1⟩ := push_ok s c hbuf hlen (by omega)
    have hscd1 : Scalars (ds ++ [c]) := by
      intro x hx
      rcases List.mem_append.mp hx with hx | hx
      · exact hscd x hx
      · rcases List.mem_cons.mp hx with hx | hx
        · exact hx ▸ hc
        · exact absurd hx (by simp)
    have hcontent1' : content s1 = utf8Encode (ds ++ [c]) := by
      rw [hcontent1, hcontent, utf8Encode_append]
      simp [utf8Encode]
    obtain ⟨s2, s3, hpushAll, hpopN, hcont3, hlen3, hbuf3⟩ := ih s1 (ds ++ [c]) hbuf1
      (by omega) hscd1 hscc' hcontent1' (by omega)
    have hcont3' : content s3 = utf8Encode (ds ++ [c]) := by
      rw [hcont3, hcontent1']
    obtain ⟨s4, hpop, hlen4, hbuf4, hcontent4⟩ := pop_ok s3 ds c hbuf3
      (by omega) hscd1 hcont3'
    refine ⟨s2, s4, ?_, ?_, ?_, ?_, hbuf4⟩
    · show (match s.push c with
        | some (sx, none) => pushAll sx cs'
        | _ => none) = some s2
      rw [hpush]
      exact hpushAll
    · have h9 := popN_snoc cs'.length s2 s3 cs'.reverse s4 c hpopN hpop
      show popN s2 (cs'.length + 1) = some (s4, (c :: cs').reverse)
      rw [h9, List.reverse_cons]
    · rw [hcontent4, hcontent]
    · rw [hlen4, hlen3, hlen1]
      omega

/-- C3: pushes of a fitting block of characters all succeed, the same
number of pops returns them in reverse order, and the buffer's content
and length are restored. -/
theorem C3_push_pop_stack (N : Nat) (s : String N) (cs : List Nat)
    (hwf : Wf N s) (hsc : Scalars cs)
    (hfit : s.len + (utf8Encode cs).length ≤ N) :
    ∃ s1 s2, pushAll s cs = some s1 ∧ popN s1 cs.length = some (s2, cs.reverse) ∧
      content s2 = content s ∧ s2.len = s.len := by
  obtain ⟨hbuf, hlen, hvalid⟩ := hwf
  obtain ⟨ds, hscd, hcontent⟩ := validUtf8_elim _ hvalid
  obtain ⟨s1, s2, h1, h2, h3, h4, -⟩ :=
    push_pop_aux cs s ds hbuf hlen hscd hsc hcontent hfit
  exact ⟨s1, s2, h1, h2, h3, h4⟩

/-- The inserted-content form of a successful `insert_str` is again an
encoding of scalars, so the result is well formed. -/
theorem insert_str_wf {N : Nat} (s : String N) (i : Nat) (ts : List Nat)
    (hwf : Wf N s) (hts : Scalars ts) (s1 : String N) (r : Option LengthError)
    (h : s.insert_str i ts = some (s1, r)) : Wf N s1 := by
  obtain ⟨hbuf, hlen, hvalid⟩ := hwf
  by_cases hb : strIsCharBoundary (content s) i = true
  · by_cases hfit : s.len + (utf8Encode ts).length ≤ N
    · obtain ⟨s1', heq, hlen1, hbuf1, hcontent1⟩ := insert_str_ok s i ts hbuf hlen hb hfit
      rw [heq, Option.some.injEq, Prod.mk.injEq] at h
      obtain ⟨h1, -⟩ := h
      subst h1
      obtain ⟨cs, hsc, hcontent⟩ := validUtf8_elim _ hvalid
      have hb' : strIsCharBoundary (utf8Encode cs) i = true := by
        rw [← hcontent]; exact hb
      obtain ⟨cs1, cs2, hdecomp, hidx⟩ := (boundary_encode cs i hsc).mp hb'
      refine ⟨hbuf1, by omega, ?_⟩
      have hform : content s1' = utf8Encode (cs1 ++ (ts ++ cs2)) := by
        rw [hcontent1, hcontent, hdecomp, utf8Encode_append, hidx,
          List.take_left' rfl, List.drop_left' rfl, utf8Encode_append, utf8Encode_append,
          List.append_assoc]
      rw [hform]
      refine validUtf8_encode _ ?_
      intro x hx
      have hsc1 : Scalars cs1 := fun y hy => hsc y (by rw [hdecomp]; simp [hy])
      have hsc2 : Scalars cs2 := fun y hy => hsc y (by rw [hdecomp]; simp [hy])
      rcases List.mem_append.mp hx with hx | hx
      · exact hsc1 x hx
      · rcases List.mem_append.mp hx with hx | hx
        · exact hts x hx
        · exact hsc2 x hx
    · rw [insert_str_err s i ts hb (by omega), Option.some.injEq, Prod.mk.injEq] at h
      obtain ⟨h1, -⟩ := h
      subst h1
      exact ⟨hbuf, hlen, hvalid⟩
  · rw [insert_str_panic s i ts (by simpa using hb)] at h
    exact Option.noConfusion h

/-- C1: every public operation of the buffer preserves the two invariants
`len ≤ N` and "the first `len` bytes are valid UTF-8" (with the backing
array keeping its `N` bytes): `new`, `from_str`, `from_utf8`, `push`,
`push_str`, `insert`, `insert_str`, `pop`, `remove`, `truncate`, `clear`,
`make_ascii_uppercase` and `make_ascii_lowercase`, whenever they return
without panicking. -/
theorem C1_invariants (N : Nat) :
    (Wf N (String.new N)) ∧
    (∀ (cs : List Nat) (b : String N), Scalars cs →
      String.from_str N cs = .ok b → Wf N b) ∧
    (∀ (data : List Nat) (b : String N),
      String.from_utf8 N data = some (.ok b) → Wf N b) ∧
    (∀ (s : String N) (c : Nat) (s1 : String N) (r : Option LengthError),
      Wf N s → IsScalar c → s.push c = some (s1, r) → Wf N s1) ∧
    (∀ (s : String N) (ts : List Nat) (s1 : String N) (r : Option LengthError),
      Wf N s → Scalars ts → s.push_str ts = some (s1, r) → Wf N s1) ∧
    (∀ (s : String N) (i c : Nat) (s1 : String N) (r : Option LengthError),
      Wf N s → IsScalar c → s.insert i c = some (s1, r) → Wf N s1) ∧
    (∀ (s : String N) (i : Nat) (ts : List Nat) (s1 : String N) (r : Option LengthError),
      Wf N s → Scalars ts → s.insert_str i ts = some (s1, r) → Wf N s1) ∧
    (∀ (s : String N) (s1 : String N) (r : Option Nat),
      Wf N s → s.pop = some (s1, r) → Wf N s1) ∧
    (∀ (s : String N) (i : Nat) (s1 : String N) (c : Nat),
      Wf N s → s.remove i = some (s1, c) → Wf N s1) ∧
    (∀ (s : String N) (l : Nat) (s1 : String N),
      Wf N s → s.truncate l = some s1 → Wf N s1) ∧
    (∀ s : String N, Wf N s → Wf N s.clear) ∧
    (∀ s : String N, Wf N s → Wf N s.make_ascii_uppercase) ∧
    (∀ s : String N, Wf N s → Wf N s.make_ascii_lowercase) := by
  have hascii : ∀ (f : Nat → Nat), (∀ b, 0x80 ≤ b → f b = b) → (∀ c, c < 0x80 → f c < 0x80) →
      ∀ s : String N, Wf N s →
      Wf N (⟨s.len, (content s).map f ++ s.buf.drop s.len⟩ : String N) := by
    intro f hhi hlo s hwf
    obtain ⟨hbuf, hlen, hvalid⟩ := hwf
    obtain ⟨cs, hsc, hcontent⟩ := validUtf8_elim _ hvalid
    have hclen := content_length s hbuf hlen
    refine ⟨?_, hlen, ?_⟩
    · simp
      omega
    · rw [content_mk, List.take_append_eq_append_take]
      have h1 : ((content s).map f).length = s.len := by
        simp [hclen]
      rw [h1, List.take_of_length_le (by rw [h1]), Nat.sub_self]
      simp only [List.take_zero, List.append_nil]
      obtain ⟨hmap, hsc'⟩ := map_ascii_scalars f hhi hlo cs hsc
      rw [hcontent, hmap]
      exact validUtf8_encode _ hsc'
  have hsingle : ∀ c : Nat, IsScalar c → Scalars [c] := by
    intro c hc x hx
    rcases List.mem_cons.mp hx with hx | hx
    · exact hx ▸ hc
    · exact absurd hx (by simp)
  refine ⟨?_, ?_, ?_, ?_, ?_, ?_, ?_, ?_, ?_, ?_, ?_, ?_, ?_⟩
  · -- new
    refine ⟨by simp [String.new], Nat.zero_le N, ?_⟩
    show validUtf8 ((List.replicate N 0).take 0) = true
    simp [validUtf8_nil]
  · -- from_str
    intro cs b hsc h
    unfold String.from_str at h
    by_cases hle : (utf8Encode cs).length ≤ N
    · rw [if_neg (by omega), Except.ok.injEq] at h
      subst h
      refine ⟨by simp; omega, hle, ?_⟩
      rw [content_mk, List.take_left' rfl]
      exact validUtf8_encode _ hsc
    · rw [if_pos (by omega)] at h
      exact Except.noConfusion h
  · -- from_utf8
    intro data b h
    unfold String.from_utf8 at h
    by_cases hMN : data.length ≤ N
    · rw [if_pos hMN] at h
      rcases hidx : utf8ErrIndex data with _ | i
      · rw [hidx] at h
        dsimp only at h
        by_cases hNM : N = data.length
        · rw [if_pos hNM, Option.some.injEq, Except.ok.injEq] at h
          subst h
          refine ⟨hNM.symm, hMN, ?_⟩
          rw [content_mk, List.take_of_length_le (le_refl _)]
          rw [validUtf8, hidx]
          rfl
        · rw [if_neg hNM] at h
          exact Option.noConfusion h
      · rw [hidx] at h
        dsimp only at h
        rw [Option.some.injEq] at h
        exact Except.noConfusion h
    · rw [if_neg hMN] at h
      exact Option.noConfusion h
  · -- push
    intro s c s1 r hwf hc h
    exact insert_str_wf s s.len [c] hwf (hsingle c hc) s1 r h
  · -- push_str
    intro s ts s1 r hwf hts h
    exact insert_str_wf s s.len ts hwf hts s1 r h
  · -- insert
    intro s i c s1 r hwf hc h
    exact insert_str_wf s i [c] hwf (hsingle c hc) s1 r h
  · -- insert_str
    intro s i ts s1 r hwf hts h
    exact insert_str_wf s i ts hwf hts s1 r h
  · -- pop
    intro s s1 r hwf h
    obtain ⟨hbuf, hlen, hvalid⟩ := hwf
    by_cases h0 : s.len = 0
    · unfold String.pop at h
      rw [if_pos h0, Option.some.injEq, Prod.mk.injEq] at h
      obtain ⟨h1, -⟩ := h
      subst h1
      exact ⟨hbuf, hlen, hvalid⟩
    · obtain ⟨cs, hsc, hcontent⟩ := validUtf8_elim _ hvalid
      have hcs_ne : cs ≠ [] := by
        intro hx
        subst hx
        have := content_length s hbuf hlen
        rw [hcontent] at this
        simp [utf8Encode] at this
        omega
      obtain ⟨init, c, hcs⟩ := List.eq_nil_or_concat cs |>.resolve_left hcs_ne
      rw [List.concat_eq_append] at hcs
      subst hcs
      obtain ⟨s1', hpop, hlen1, hbuf1, hcontent1⟩ := pop_ok s init c hbuf hlen hsc hcontent
      rw [hpop, Option.some.injEq, Prod.mk.injEq] at h
      obtain ⟨h1, -⟩ := h
      subst h1
      refine ⟨hbuf1, by omega, ?_⟩
      rw [hcontent1]
      exact validUtf8_encode _ (fun x hx => hsc x (by simp [hx]))
  · -- remove
    intro s i s1 c hwf h
    obtain ⟨hbuf, hlen, hvalid⟩ := hwf
    by_cases hilt : i < s.len
    · by_cases hb : strIsCharBoundary (content s) i = true
      · obtain ⟨cs, hsc, hcontent⟩ := validUtf8_elim _ hvalid
        have hb' : strIsCharBoundary (utf8Encode cs) i = true := by
          rw [← hcontent]; exact hb
        obtain ⟨cs1, cs2, hdecomp, hidx⟩ := (boundary_encode cs i hsc).mp hb'
        subst hdecomp
        rcases cs2 with _ | ⟨c', cs2'⟩
        · exfalso
          have := content_length s hbuf hlen
          rw [hcontent] at this
          simp [utf8Encode_append, utf8Encode] at this
          omega
        · subst hidx
          obtain ⟨s1', hrem, hlen1, hbuf1, hcontent1⟩ :=
            remove_ok s cs1 c' cs2' hbuf hlen hsc hcontent
          rw [hrem, Option.some.injEq, Prod.mk.injEq] at h
          obtain ⟨h1, -⟩ := h
          subst h1
          refine ⟨hbuf1, by omega, ?_⟩
          rw [hcontent1]
          refine validUtf8_encode _ (fun x hx => hsc x ?_)
          rcases List.mem_append.mp hx with hx | hx
          · simp [hx]
          · simp [hx]
      · rw [remove_panic s i (Or.inr (by simpa using hb))] at h
        exact Option.noConfusion h
    · rw [remove_panic s i (Or.inl (by omega))] at h
      exact Option.noConfusion h
  · -- truncate
    intro s l s1 hwf h
    obtain ⟨hbuf, hlen, hvalid⟩ := hwf
    unfold String.truncate at h
    by_cases hb : strIsCharBoundary (content s) l = true
    · rw [if_pos hb, Option.some.injEq] at h
      subst h
      have hle : l ≤ s.len := by
        have h1 := strIsCharBoundary_le _ _ hb
        rw [content_length s hbuf hlen] at h1
        exact h1
      obtain ⟨cs, hsc, hcontent⟩ := validUtf8_elim _ hvalid
      have hb' : strIsCharBoundary (utf8Encode cs) l = true := by
        rw [← hcontent]; exact hb
      obtain ⟨cs1, cs2, hdecomp, hidx⟩ := (boundary_encode cs l hsc).mp hb'
      refine ⟨hbuf, by show l ≤ N; omega, ?_⟩
      have hcontent' : content (⟨l, s.buf⟩ : String N) = utf8Encode cs1 := by
        rw [content_mk]
        have h2 : s.buf.take l = (s.buf.take s.len).take l := by
          rw [List.take_take]
          congr 1
          omega
        rw [h2]
        show (content s).take l = _
        rw [hcontent, hdecomp, utf8Encode_append, hidx, List.take_left' rfl]
      rw [hcontent']
      exact validUtf8_encode _ (fun x hx => hsc x (by rw [hdecomp]; simp [hx]))
    · rw [if_neg hb] at h
      exact Option.noConfusion h
  · -- clear
    intro s hwf
    obtain ⟨hbuf, hlen, -⟩ := hwf
    refine ⟨hbuf, Nat.zero_le N, ?_⟩
    show validUtf8 (s.buf.take 0) = true
    simp [validUtf8_nil]
  · -- make_ascii_uppercase
    intro s hwf
    refine hascii toAsciiUpperByte ?_ ?_ s hwf
    · intro b hb
      unfold toAsciiUpperByte
      rw [if_neg (by omega)]
    · intro c hc
      unfold toAsciiUpperByte
      split_ifs <;> omega
  · -- make_ascii_lowercase
    intro s hwf
    refine hascii toAsciiLowerByte ?_ ?_ s hwf
    · intro b hb
      unfold toAsciiLowerByte
      rw [if_neg (by omega)]
    · intro c hc
      unfold toAsciiLowerByte
      split_ifs <;> omega

/-! ### Concrete witnesses -/

/-- Witness for C1: pushing `B` onto a well-formed one-byte buffer yields
a well-formed buffer. -/
theorem C1_invariants_witness : Wf 2 (⟨2, [0x41, 0x42]⟩ : String 2) := by
  have h := (C1_invariants 2).2.2.2.1
  exact h ⟨1, [0x41, 0x00]⟩ 0x42 ⟨2, [0x41, 0x42]⟩ none (by decide) (by decide) (by decide)

/-- Witness for C2: a full two-byte ASCII buffer rejects a push with
`LengthError { remaining := 0, count := 1 }`, unchanged. -/
theorem C2_capacity_atomic_witness :
    (⟨2, [0x41, 0x42]⟩ : String 2).push 0x43
      = some (⟨2, [0x41, 0x42]⟩, some ⟨0, 1⟩) := by
  have h := (C2_capacity_atomic 2).2.2.2.2.2
  exact h ⟨2, [0x41, 0x42]⟩ 0x43 (by decide) (by decide) (by decide)

/-- Witness for C3: pushing `A`, `B` onto the empty buffer and popping
twice returns `B` then `A` and restores the empty content. -/
theorem C3_push_pop_stack_witness :
    ∃ s1 s2, pushAll (String.new 4) [0x41, 0x42] = some s1 ∧
      popN s1 2 = some (s2, [0x42, 0x41]) ∧
      content s2 = content (String.new 4) ∧ s2.len = (String.new 4).len := by
  exact C3_push_pop_stack 4 (String.new 4) [0x41, 0x42] (by decide) (by decide) (by decide)

/-- Witness for C4: inserting `U+00B1` at offset 0 of a one-byte buffer
and removing it restores content and length. -/
theorem C4_insert_remove_witness :
    ∃ s1 s2, (⟨1, [0x41, 0x00, 0x00, 0x00]⟩ : String 4).insert 0 0xB1 = some (s1, none) ∧
      s1.remove 0 = some (s2, 0xB1) ∧
      content s2 = content (⟨1, [0x41, 0x00, 0x00, 0x00]⟩ : String 4) ∧ s2.len = 1 := by
  exact C4_insert_remove 4 ⟨1, [0x41, 0x00, 0x00, 0x00]⟩ 0 0xB1
    (by decide) (by decide) (by decide) (by decide)

/-- Witness for C5: removing inside the 3-byte character `U+5149` panics
(the general conjunct applied at offset 1). -/
theorem C5_remove_nonboundary_witness :
    (⟨3, [0xE5, 0x85, 0x89, 0x00]⟩ : String 4).remove 1 = none := by
  exact C5_remove_nonboundary.1 4 ⟨3, [0xE5, 0x85, 0x89, 0x00]⟩ 1 (by decide) (by decide)

/-- Witness for C6: `fromText` of `"A"` into capacity 2. -/
theorem C6_fromText_witness :
    ∃ b, String.from_str 2 [0x41] = .ok b ∧ content b = utf8Encode [0x41] ∧
      b.len = (utf8Encode [0x41]).length := by
  exact (C6_fromText 2 [0x41] (by decide)).1 (by decide)

/-- Witness for C8: decoding `U+5149` at offset 0. -/
theorem C8_decodeAt_witness :
    decode_utf8 (utf8Encode ([] ++ 0x5149 :: [])) (utf8Encode []).length
      = some (0x5149, (encodeChar 0x5149).length) := by
  exact (C8_decodeAt.1 [] 0x5149 [] (by decide)).1

/-- Witness for C9: `"hello"` into capacity 4 stops after `"hell"`. -/
theorem C9_fromChars_witness :
    String.from_iter 4 [0x68, 0x65, 0x6C, 0x6C, 0x6F]
        = String.from_iter 4 [0x68, 0x65, 0x6C, 0x6C] ∧
      content (String.from_iter 4 [0x68, 0x65, 0x6C, 0x6C, 0x6F])
        = utf8Encode [0x68, 0x65, 0x6C, 0x6C] := by
  exact (C9_fromChars 4).1 [0x68, 0x65, 0x6C, 0x6C] 0x6F [] (by decide) (by decide) (by decide)

/-- Witness for C10: popping a one-character buffer returns that
character and empties the buffer. -/
theorem C10_pop_total_witness :
    ∃ (init : List Nat) (c : Nat) (s1 : String 2),
      content (⟨1, [0x41, 0x00]⟩ : String 2) = utf8Encode init ++ encodeChar c ∧
      (⟨1, [0x41, 0x00]⟩ : String 2).pop = some (s1, some c) ∧
      content s1 = utf8Encode init ∧
      s1.len = 1 - (encodeChar c).length := by
  exact (C10_pop_total 2 ⟨1, [0x41, 0x00]⟩ (by decide)).2 (by decide)

end Conststr
